import Mathlib

/-!
# Framing layer of `etl.cpp` (pseudo Async-HDLC frames of the QCDM protocol)

A shallow embedding of the four functions of `src/libqmi/etl.cpp` and of the
checksum routine they share, followed by the properties proved about them.

Conventions of the embedding.

* A byte is a `Nat`; a `uint8_t*` argument is the list of the bytes that can be
  loaded through the pointer, and the `uint32_t` length travels next to it, as
  in the C signatures.  A load from an index outside that list is undefined in
  C: the embedding stops there with `Fault.oob_read`.
* A buffer obtained from `malloc` + `memset` is a list of zeros of the
  requested size.  A store `buffer[o] = v` at an index below the length of the
  buffer is `List.set`; a store at any other index is a heap overflow, and the
  embedding stops there with `Fault.oob_write`.  An allocation is taken to
  succeed.  The copy loops also return their final write cursor.
* Arithmetic on `uint32_t` is taken modulo `2 ^ 32`; a difference `a - k` is
  `(2 ^ 32 + a - k) % 2 ^ 32`.
* The `int` counters `i` and `o` hold natural numbers up to `INT_MAX`
  (`2 ^ 31 - 1`, `int` being 32 bits wide).  An increment of a counter that
  holds `INT_MAX` is undefined in C: the embedding stops there with
  `Fault.int_overflow`.  In a comparison of a counter with a `uint32_t` the
  counter is converted to `uint32_t`, which leaves a value of that range as
  it is.  The initialisation `i = insize` of `etl_unescape` converts a
  `uint32_t` to `int`: for `insize` above `INT_MAX` the counter is negative
  and the loop `for(i = insize; i >= 0; i--)` runs no iteration.
* `u_int16_t` values stay below `2 ^ 16` by construction (table entries and
  `crc >> 8`), the final `~crc` is the complement within sixteen bits.
-/

namespace Etl

/-- Number of values of a `uint32_t`. -/
def U32 : Nat := 4294967296

/-- Largest value of an `int`. -/
def INT_MAX : Nat := 2147483647

/-- Reasons for which the embedding of a function stops without a result: a
load outside the bytes behind a pointer, a store outside an allocated buffer,
an `int` incremented beyond `INT_MAX`, a loop that used up its fuel. -/
inductive Fault where
  | oob_read
  | oob_write
  | int_overflow
  | fuel
  deriving DecidableEq, Repr

/-- Values a function hands back: the `int` it returns, the buffer stored in
`*output` and the length stored in `*outsize`. -/
structure Ret where
  status : Int
  output : List Nat
  outsize : Nat
  deriving DecidableEq, Repr

/-- Load `input[i]`. -/
def load (input : List Nat) (i : Nat) : Except Fault Nat :=
  match input[i]? with
  | some b => .ok b
  | none => .error .oob_read

/-- Store `buffer[o] = v` into a buffer of `buffer.length` allocated bytes. -/
def store (buffer : List Nat) (o v : Nat) : Except Fault (List Nat) :=
  if o < buffer.length then .ok (buffer.set o v) else .error .oob_write

/-- Value of `i + 1` for an `int` counter `i`, as in `i++`, `o++` and `o+1`. -/
def int_inc (i : Nat) : Except Fault Nat :=
  if i < INT_MAX then .ok (i + 1) else .error .int_overflow

/-- Table of CRCs for each possible byte, with a generator polynomial of 0x8408. -/
def crc_table : List Nat := [
  0x0000, 0x1189, 0x2312, 0x329b, 0x4624, 0x57ad, 0x6536, 0x74bf,
  0x8c48, 0x9dc1, 0xaf5a, 0xbed3, 0xca6c, 0xdbe5, 0xe97e, 0xf8f7,
  0x1081, 0x0108, 0x3393, 0x221a, 0x56a5, 0x472c, 0x75b7, 0x643e,
  0x9cc9, 0x8d40, 0xbfdb, 0xae52, 0xdaed, 0xcb64, 0xf9ff, 0xe876,
  0x2102, 0x308b, 0x0210, 0x1399, 0x6726, 0x76af, 0x4434, 0x55bd,
  0xad4a, 0xbcc3, 0x8e58, 0x9fd1, 0xeb6e, 0xfae7, 0xc87c, 0xd9f5,
  0x3183, 0x200a, 0x1291, 0x0318, 0x77a7, 0x662e, 0x54b5, 0x453c,
  0xbdcb, 0xac42, 0x9ed9, 0x8f50, 0xfbef, 0xea66, 0xd8fd, 0xc974,
  0x4204, 0x538d, 0x6116, 0x709f, 0x0420, 0x15a9, 0x2732, 0x36bb,
  0xce4c, 0xdfc5, 0xed5e, 0xfcd7, 0x8868, 0x99e1, 0xab7a, 0xbaf3,
  0x5285, 0x430c, 0x7197, 0x601e, 0x14a1, 0x0528, 0x37b3, 0x263a,
  0xdecd, 0xcf44, 0xfddf, 0xec56, 0x98e9, 0x8960, 0xbbfb, 0xaa72,
  0x6306, 0x728f, 0x4014, 0x519d, 0x2522, 0x34ab, 0x0630, 0x17b9,
  0xef4e, 0xfec7, 0xcc5c, 0xddd5, 0xa96a, 0xb8e3, 0x8a78, 0x9bf1,
  0x7387, 0x620e, 0x5095, 0x411c, 0x35a3, 0x242a, 0x16b1, 0x0738,
  0xffcf, 0xee46, 0xdcdd, 0xcd54, 0xb9eb, 0xa862, 0x9af9, 0x8b70,
  0x8408, 0x9581, 0xa71a, 0xb693, 0xc22c, 0xd3a5, 0xe13e, 0xf0b7,
  0x0840, 0x19c9, 0x2b52, 0x3adb, 0x4e64, 0x5fed, 0x6d76, 0x7cff,
  0x9489, 0x8500, 0xb79b, 0xa612, 0xd2ad, 0xc324, 0xf1bf, 0xe036,
  0x18c1, 0x0948, 0x3bd3, 0x2a5a, 0x5ee5, 0x4f6c, 0x7df7, 0x6c7e,
  0xa50a, 0xb483, 0x8618, 0x9791, 0xe32e, 0xf2a7, 0xc03c, 0xd1b5,
  0x2942, 0x38cb, 0x0a50, 0x1bd9, 0x6f66, 0x7eef, 0x4c74, 0x5dfd,
  0xb58b, 0xa402, 0x9699, 0x8710, 0xf3af, 0xe226, 0xd0bd, 0xc134,
  0x39c3, 0x284a, 0x1ad1, 0x0b58, 0x7fe7, 0x6e6e, 0x5cf5, 0x4d7c,
  0xc60c, 0xd785, 0xe51e, 0xf497, 0x8028, 0x91a1, 0xa33a, 0xb2b3,
  0x4a44, 0x5bcd, 0x6956, 0x78df, 0x0c60, 0x1de9, 0x2f72, 0x3efb,
  0xd68d, 0xc704, 0xf59f, 0xe416, 0x90a9, 0x8120, 0xb3bb, 0xa232,
  0x5ac5, 0x4b4c, 0x79d7, 0x685e, 0x1ce1, 0x0d68, 0x3ff3, 0x2e7a,
  0xe70e, 0xf687, 0xc41c, 0xd595, 0xa12a, 0xb0a3, 0x8238, 0x93b1,
  0x6b46, 0x7acf, 0x4854, 0x59dd, 0x2d62, 0x3ceb, 0x0e70, 0x1ff9,
  0xf78f, 0xe606, 0xd49d, 0xc514, 0xb1ab, 0xa022, 0x92b9, 0x8330,
  0x7bc7, 0x6a4e, 0x58d5, 0x495c, 0x3de3, 0x2c6a, 0x1ef1, 0x0f78
]

/-- Body of the loop of `etl_crc16`:
`crc = crc_table[(crc ^ *buffer++) & 0xff] ^ (crc >> 8)`. -/
def crc_step (crc b : Nat) : Nat :=
  crc_table.getD ((crc ^^^ b) &&& 0xff) 0 ^^^ (crc >>> 8)

/-- Loop `while (len--)` of `etl_crc16`; the list is what `buffer` points to. -/
def crc_loop : List Nat → Nat → Nat → Except Fault Nat
  | _, 0, crc => .ok crc
  | [], _ + 1, _ => .error .oob_read
  | b :: rest, len + 1, crc => crc_loop rest len (crc_step crc b)

/-- Calculate the CRC for a buffer using a seed of 0xffff. -/
def etl_crc16 (buffer : List Nat) (len : Nat) : Except Fault Nat :=
  match crc_loop buffer len 0xffff with
  | .ok crc => .ok (crc ^^^ 0xffff)
  | .error e => .error e

/-- Bytes that `memcpy(_, src, n)` loads: `src[0] .. src[n-1]`. -/
def load_bytes (src : List Nat) (n : Nat) : Except Fault (List Nat) :=
  if n ≤ src.length then .ok (src.take n) else .error .oob_read

/-- Stores of `memcpy(&dst[off], _, n)`: the k-th copied byte goes to
`dst[off + k]`. -/
def store_bytes : List Nat → Nat → List Nat → Except Fault (List Nat)
  | dst, _, [] => .ok dst
  | dst, off, b :: bs => do
    let dst ← store dst off b
    store_bytes dst (off + 1) bs

/-- First loop of `etl_escape`, `for(i = 0; i < insize; i++)`, with `n` the
number of iterations still to run (`insize - i`):
`if(input[i] == 0x7E || input[i] == 0x7D) size++; size++;`, then `i++`. -/
def escape_size (input : List Nat) : Nat → Nat → Nat → Except Fault Nat
  | 0, _, size => .ok size
  | n + 1, i, size => do
    let b ← load input i
    if b = 0x7E ∨ b = 0x7D then do
      let i ← int_inc i
      escape_size input n i (((size + 1) % U32 + 1) % U32)
    else do
      let i ← int_inc i
      escape_size input n i ((size + 1) % U32)

/-- Second loop of `etl_escape`, `for(i = 0; i < insize; i++)`, with `n` the
number of iterations still to run; returns the buffer and the final cursor
`o`.  A reserved byte stores at `buffer[o]` and `buffer[o+1]` and moves `o`
twice, any other byte stores at `buffer[o]` and moves `o` once. -/
def escape_copy (input : List Nat) : Nat → Nat → Nat → List Nat →
    Except Fault (List Nat × Nat)
  | 0, _, o, buffer => .ok (buffer, o)
  | n + 1, i, o, buffer => do
    let b ← load input i
    if b = 0x7E then do
      let buffer ← store buffer o 0x7D
      let o1 ← int_inc o
      let buffer ← store buffer o1 (0x7E ^^^ 0x20)
      let o ← int_inc o
      let o ← int_inc o
      let i ← int_inc i
      escape_copy input n i o buffer
    else if b = 0x7D then do
      let buffer ← store buffer o 0x7D
      let o1 ← int_inc o
      let buffer ← store buffer o1 (0x7D ^^^ 0x20)
      let o ← int_inc o
      let o ← int_inc o
      let i ← int_inc i
      escape_copy input n i o buffer
    else do
      let buffer ← store buffer o b
      let o ← int_inc o
      let i ← int_inc i
      escape_copy input n i o buffer

/-- Function `etl_escape` of the source: size the output, allocate it zeroed,
fill it. -/
def etl_escape (input : List Nat) (insize : Nat) : Except Fault Ret := do
  let size ← escape_size input insize 0 0
  let filled ← escape_copy input insize 0 0 (List.replicate size 0)
  pure ⟨0, filled.1, size⟩

/-- First loop of `etl_unescape`, `for(i = insize; i >= 0; i--)`, started at a
value `i` of the `int` counter that is not negative:
`if(input[i] == 0x7D) size--;`.  The body runs for `i`, `i-1`, .., `0`. -/
def unescape_size (input : List Nat) : Nat → Nat → Except Fault Nat
  | 0, size =>
    match load input 0 with
    | .error e => .error e
    | .ok b => .ok (if b = 0x7D then (U32 + size - 1) % U32 else size)
  | i + 1, size =>
    match load input (i + 1) with
    | .error e => .error e
    | .ok b => unescape_size input i (if b = 0x7D then (U32 + size - 1) % U32 else size)

/-- Second loop of `etl_unescape`, `for(i = 0; i <= insize; i++)`; returns the
buffer and the final cursor `o`.  On 0x7D the body loads `input[i+1]`, stores
at `buffer[o]` and moves `i` once more; every iteration ends with `o++` and
the `i++` of the loop.  Every iteration moves `i` forward, `fuel` bounds the
number of iterations. -/
def unescape_copy (input : List Nat) (insize : Nat) : Nat → Nat → Nat → List Nat →
    Except Fault (List Nat × Nat)
  | 0, i, o, buffer => if i ≤ insize then .error .fuel else .ok (buffer, o)
  | fuel + 1, i, o, buffer =>
    if i ≤ insize then do
      let b ← load input i
      if b = 0x7D then do
        let i1 ← int_inc i
        let c ← load input i1
        let buffer ← store buffer o (c ^^^ 0x20)
        let i ← int_inc i
        let o ← int_inc o
        let i ← int_inc i
        unescape_copy input insize fuel i o buffer
      else do
        let buffer ← store buffer o b
        let o ← int_inc o
        let i ← int_inc i
        unescape_copy input insize fuel i o buffer
    else .ok (buffer, o)

/-- Function `etl_unescape` of the source: size the output, allocate it zeroed,
fill it.  The sizing loop starts at `int i = insize`, which is negative for
`insize` above `INT_MAX`: the loop is skipped then and `size` stays `insize`.
The copy loop gets `insize + 1` as fuel, one unit for each index of
`0 .. insize`. -/
def etl_unescape (input : List Nat) (insize : Nat) : Except Fault Ret := do
  let size ← (if insize ≤ INT_MAX then unescape_size input insize insize else .ok insize)
  let filled ← unescape_copy input insize (insize + 1) 0 0 (List.replicate size 0)
  pure ⟨0, filled.1, size⟩

/-- Function `etl_request` of the source: checksum, escape, wrap. -/
def etl_request (input : List Nat) (insize : Nat) : Except Fault Ret := do
  let bytes ← load_bytes input insize
  let inbuf ← store_bytes (List.replicate ((insize + 2) % U32) 0) 0 bytes
  let crc ← etl_crc16 input insize
  let inbuf ← store inbuf insize (crc &&& 0xFF)
  let inbuf ← store inbuf ((insize + 1) % U32) ((crc >>> 8) &&& 0xFF)
  let esc ← etl_escape inbuf ((insize + 2) % U32)
  let escaped ← load_bytes esc.output esc.outsize
  let buffer ← store_bytes (List.replicate ((esc.outsize + 2) % U32) 0) 1 escaped
  let buffer ← store buffer 0 0x7E
  let buffer ← store buffer ((esc.outsize + 1) % U32) 0x7E
  pure ⟨0, buffer, (esc.outsize + 2) % U32⟩

/-- Lines 100 to 113 of `etl_response`, everything after the call of
`etl_unescape`, on the buffer `outbuf` and the length `size` that call stored:
compare the checksum of `size-4` bytes from `outbuf[1]` on with the two bytes
at `outbuf[size-3]` (a little-endian load), add 2 to `size` when they differ,
copy `size-4` bytes starting at `outbuf[1]`. -/
def etl_response_check (outbuf : List Nat) (size : Nat) : Except Fault Ret := do
  let crc ← etl_crc16 (outbuf.drop 1) ((U32 + size - 4) % U32)
  let lo ← load outbuf ((U32 + size - 3) % U32)
  let hi ← load outbuf ((U32 + size - 3) % U32 + 1)
  let chk := lo + 256 * hi
  let size := if crc ≠ chk then (size + 2) % U32 else size
  let buffer ← load_bytes (outbuf.drop 1) ((U32 + size - 4) % U32)
  pure ⟨0, buffer, (U32 + size - 4) % U32⟩

/-- Function `etl_response` of the source: unescape, then check and copy. -/
def etl_response (input : List Nat) (insize : Nat) : Except Fault Ret := do
  let unesc ← etl_unescape input insize
  etl_response_check unesc.output unesc.outsize

/-- One step of the bit-serial reflected CRC with polynomial 0x8408: if the low
bit is 1 then shift right by one and XOR with 0x8408, else shift right by one. -/
def crc_bit (x : Nat) : Nat :=
  if x &&& 1 = 1 then (x >>> 1) ^^^ 0x8408 else x >>> 1

/-- Bit-serial reflected CRC-16 (CRC-16/X-25) as the specification words it:
start from 0xFFFF, XOR each byte into the register and shift eight times,
complement the final register. -/
def crc16_bitwise (bytes : List Nat) : Nat :=
  bytes.foldl (fun reg b => crc_bit^[8] (reg ^^^ b)) 0xffff ^^^ 0xffff

/-- Block that the specification of escape emits for one input byte: the
escape marker followed by `b XOR 0x20` for a reserved byte, the byte itself
otherwise. -/
def escape_block (b : Nat) : List Nat :=
  if b = 0x7E ∨ b = 0x7D then [0x7D, b ^^^ 0x20] else [b]

/-- Reference definition of escape: the blocks of the input bytes, in input
order. -/
def escape_ref : List Nat → List Nat
  | [] => []
  | b :: rest => escape_block b ++ escape_ref rest

/-- Number of reserved bytes (0x7E or 0x7D) of a byte sequence. -/
def reserved_count : List Nat → Nat
  | [] => 0
  | b :: rest => (if b = 0x7E ∨ b = 0x7D then 1 else 0) + reserved_count rest

/-- A byte sequence holds no literal reserved byte: no 0x7E at all, and every
0x7D is followed, inside the sequence, by 0x5E or 0x5D. -/
def no_literal_reserved (out : List Nat) : Prop :=
  (∀ j : Nat, out[j]? ≠ some 0x7E) ∧
  (∀ j : Nat, out[j]? = some 0x7D → out[j + 1]? = some 0x5E ∨ out[j + 1]? = some 0x5D)

/-! ## The checksum table and the bit-serial step -/

set_option maxRecDepth 100000 in
theorem crc_table_regen : crc_table = (List.range 256).map (fun i => crc_bit^[8] i) := by
  decide

theorem crc_bit_eq (x : Nat) : crc_bit x = (x / 2) ^^^ (0x8408 * (x % 2)) := by
  unfold crc_bit
  rw [Nat.and_one_is_mod, Nat.shiftRight_one]
  rcases Nat.mod_two_eq_zero_or_one x with h | h <;> simp [h]

theorem xor_xor_xor_comm (a b c d : Nat) : (a ^^^ b) ^^^ (c ^^^ d) = (a ^^^ c) ^^^ (b ^^^ d) := by
  rw [Nat.xor_assoc, Nat.xor_assoc, ← Nat.xor_assoc b c d, Nat.xor_comm b c, Nat.xor_assoc c b d]

theorem crc_bit_xor (a b : Nat) : crc_bit (a ^^^ b) = crc_bit a ^^^ crc_bit b := by
  rw [crc_bit_eq, crc_bit_eq, crc_bit_eq, Nat.xor_div_two, Nat.xor_mod_two_eq,
    xor_xor_xor_comm]
  congr 1
  rcases Nat.mod_two_eq_zero_or_one a with ha | ha <;>
    rcases Nat.mod_two_eq_zero_or_one b with hb | hb <;>
    · have : (a + b) % 2 = (a % 2 + b % 2) % 2 := Nat.add_mod a b 2
      rw [this, ha, hb]
      decide

theorem crc_bit_iterate_xor (k a b : Nat) :
    crc_bit^[k] (a ^^^ b) = crc_bit^[k] a ^^^ crc_bit^[k] b := by
  induction k generalizing a b with
  | zero => rfl
  | succ k ih => rw [Function.iterate_succ_apply, Function.iterate_succ_apply,
      Function.iterate_succ_apply, crc_bit_xor, ih]

theorem crc_bit_two_mul (m : Nat) : crc_bit (2 * m) = m := by
  rw [crc_bit_eq]
  simp

theorem crc_bit_iterate_shift (h : Nat) : crc_bit^[8] (256 * h) = h := by
  have e : 256 * h = 2 * (2 * (2 * (2 * (2 * (2 * (2 * (2 * h))))))) := by omega
  rw [e]
  simp only [Function.iterate_succ_apply, Function.iterate_zero, id_eq, crc_bit_two_mul]

theorem split_low_byte (x : Nat) : x = (x % 256) ^^^ (256 * (x / 256)) := by
  apply Nat.eq_of_testBit_eq
  intro i
  have h256 : (256 : Nat) = 2 ^ 8 := by norm_num
  rw [Nat.testBit_xor, h256, Nat.testBit_mod_two_pow, Nat.mul_comm, ← Nat.shiftLeft_eq,
    Nat.testBit_shiftLeft, ← Nat.shiftRight_eq_div_pow, Nat.testBit_shiftRight]
  by_cases hi : i < 8
  · have h8 : ¬ 8 ≤ i := by omega
    simp [hi, h8]
  · have : 8 + (i - 8) = i := by omega
    have h8 : 8 ≤ i := by omega
    simp [hi, this, h8]

theorem crc_table_getD (lo : Nat) (h : lo < 256) :
    crc_table.getD lo 0 = crc_bit^[8] lo := by
  rw [crc_table_regen, List.getD_eq_getElem?_getD, List.getElem?_map,
    List.getElem?_range h]
  rfl

/-- The table lookup of the loop body is eight bit-serial steps. -/
theorem crc_table_lookup (x : Nat) :
    crc_table.getD (x &&& 0xff) 0 ^^^ (x >>> 8) = crc_bit^[8] x := by
  have hand : x &&& 0xff = x % 256 := Nat.and_pow_two_sub_one_eq_mod x 8
  have hshift : x >>> 8 = x / 256 := Nat.shiftRight_eq_div_pow x 8
  rw [hand, hshift, crc_table_getD _ (Nat.mod_lt x (by norm_num))]
  conv_rhs => rw [split_low_byte x, crc_bit_iterate_xor, crc_bit_iterate_shift]

theorem crc_step_eq (crc b : Nat) (hb : b < 256) :
    crc_step crc b = crc_bit^[8] (crc ^^^ b) := by
  rw [← crc_table_lookup]
  unfold crc_step
  congr 1
  apply Nat.eq_of_testBit_eq
  intro i
  rw [Nat.testBit_shiftRight, Nat.testBit_shiftRight, Nat.testBit_xor]
  have : b.testBit (8 + i) = false :=
    Nat.testBit_lt_two_pow (lt_of_lt_of_le hb (by
    calc (256 : Nat) = 2 ^ 8 := by norm_num
      _ ≤ 2 ^ (8 + i) := Nat.pow_le_pow_right (by norm_num) (by omega)))
  simp [this]

/-! ## Checksum -/

theorem crc_loop_append (B rest : List Nat) (crc : Nat) :
    crc_loop (B ++ rest) B.length crc = .ok (B.foldl crc_step crc) := by
  induction B generalizing crc with
  | nil => cases rest <;> rfl
  | cons b B ih => exact ih (crc_step crc b)

theorem crc_loop_exact (B : List Nat) (crc : Nat) :
    crc_loop B B.length crc = .ok (B.foldl crc_step crc) := by
  have h := crc_loop_append B [] crc
  rwa [List.append_nil] at h

theorem etl_crc16_append (B rest : List Nat) :
    etl_crc16 (B ++ rest) B.length = .ok (B.foldl crc_step 0xffff ^^^ 0xffff) := by
  unfold etl_crc16
  rw [crc_loop_append]

theorem etl_crc16_exact (B : List Nat) :
    etl_crc16 B B.length = .ok (B.foldl crc_step 0xffff ^^^ 0xffff) := by
  have h := etl_crc16_append B []
  rwa [List.append_nil] at h

theorem foldl_crc_step_eq (B : List Nat) (hB : ∀ b ∈ B, b < 256) (crc : Nat) :
    B.foldl crc_step crc = B.foldl (fun reg b => crc_bit^[8] (reg ^^^ b)) crc := by
  induction B generalizing crc with
  | nil => rfl
  | cons b B ih =>
    rw [List.foldl_cons, List.foldl_cons, crc_step_eq crc b (hB b (List.mem_cons_self b B))]
    exact ih (fun c hc => hB c (List.mem_cons_of_mem b hc)) _

/-- C8. Every literal entry `crc_table[i]`, `i` in 0..255, is the value reached
from `i` by eight reflected CRC steps with the polynomial 0x8408: regenerating
the table from the polynomial reproduces all 256 entries. -/
theorem crc_table_correct (i : Nat) (hi : i < 256) :
    crc_table[i]? = some (crc_bit^[8] i) := by
  rw [crc_table_regen, List.getElem?_map, List.getElem?_range hi]
  rfl

theorem crc_table_correct_witness :
    255 < 256 ∧ crc_table[255]? = some (crc_bit^[8] 255) ∧ crc_bit^[8] 255 = 0x0f78 :=
  ⟨by decide, crc_table_correct 255 (by decide), rfl⟩

/-- C9 as stated fails: the checksum of the empty buffer is not 0xFFFF. -/
theorem etl_crc16_empty_ne_ffff : etl_crc16 [] 0 ≠ .ok 0xFFFF := by
  intro h
  cases h

/-- C9, amended. Applied to a buffer of length 0, `etl_crc16` returns 0x0000,
the complement of the seed 0xFFFF, whatever the pointer refers to. -/
theorem etl_crc16_empty (buffer : List Nat) : etl_crc16 buffer 0 = .ok 0x0000 := by
  cases buffer <;> rfl

/-- C10. On every sequence of bytes the table-driven `etl_crc16` returns the
bit-serial reflected CRC-16 (seed 0xFFFF, each byte XORed into the low eight
bits followed by eight shift steps with polynomial 0x8408, final complement). -/
theorem etl_crc16_eq_bitwise (B : List Nat) (hB : ∀ b ∈ B, b < 256) :
    etl_crc16 B B.length = .ok (crc16_bitwise B) := by
  rw [etl_crc16_exact, foldl_crc_step_eq B hB]
  rfl

set_option maxRecDepth 100000 in
theorem etl_crc16_eq_bitwise_witness :
    (∀ b ∈ [0x31, 0x32, 0x33, 0x34, 0x35, 0x36, 0x37, 0x38, 0x39], b < 256) ∧
    etl_crc16 [0x31, 0x32, 0x33, 0x34, 0x35, 0x36, 0x37, 0x38, 0x39]
        [0x31, 0x32, 0x33, 0x34, 0x35, 0x36, 0x37, 0x38, 0x39].length =
      .ok (crc16_bitwise [0x31, 0x32, 0x33, 0x34, 0x35, 0x36, 0x37, 0x38, 0x39]) ∧
    crc16_bitwise [0x31, 0x32, 0x33, 0x34, 0x35, 0x36, 0x37, 0x38, 0x39] = 0x906E :=
  ⟨by decide, etl_crc16_eq_bitwise _ (by decide), rfl⟩

/-! ## Range of the checksum -/

set_option maxRecDepth 100000 in
theorem crc_table_getD_lt (i : Nat) : crc_table.getD i 0 < 65536 := by
  have hall : ∀ x ∈ crc_table, x < 65536 := by decide
  rw [List.getD_eq_getElem?_getD]
  by_cases h : i < crc_table.length
  · rw [List.getElem?_eq_getElem h]
    exact hall _ (List.getElem_mem h)
  · rw [List.getElem?_eq_none (by omega)]
    decide

theorem crc_step_lt (crc b : Nat) (h : crc < 65536) : crc_step crc b < 65536 := by
  unfold crc_step
  have h1 : crc >>> 8 < 2 ^ 16 := by
    rw [Nat.shiftRight_eq_div_pow]
    exact lt_of_le_of_lt (Nat.div_le_self _ _) h
  exact Nat.xor_lt_two_pow (n := 16) (crc_table_getD_lt _) h1

theorem foldl_crc_step_lt (B : List Nat) (crc : Nat) (h : crc < 65536) :
    B.foldl crc_step crc < 65536 := by
  induction B generalizing crc with
  | nil => exact h
  | cons b B ih => exact ih _ (crc_step_lt crc b h)

theorem crc_value_lt (B : List Nat) : B.foldl crc_step 0xffff ^^^ 0xffff < 65536 :=
  Nat.xor_lt_two_pow (n := 16) (foldl_crc_step_lt B _ (by norm_num)) (by norm_num)

theorem low_byte_eq (c : Nat) : c &&& 0xFF = c % 256 :=
  Nat.and_pow_two_sub_one_eq_mod c 8

theorem high_byte_eq (c : Nat) (h : c < 65536) : (c >>> 8) &&& 0xFF = c / 256 := by
  rw [low_byte_eq, Nat.shiftRight_eq_div_pow]
  exact Nat.mod_eq_of_lt (by omega)

theorem load_bytes_exact (src : List Nat) : load_bytes src src.length = .ok src := by
  simp [load_bytes]

/-! ## Loads and stores -/

theorem load_append (pre rest : List Nat) (b : Nat) :
    load (pre ++ b :: rest) pre.length = .ok b := by
  unfold load
  rw [List.getElem?_append_right (le_refl _)]
  simp

theorem load_of_length_le (input : List Nat) (i : Nat) (h : input.length ≤ i) :
    load input i = .error .oob_read := by
  unfold load
  rw [List.getElem?_eq_none h]

theorem load_of_lt (input : List Nat) (i : Nat) (h : i < input.length) :
    load input i = .ok (input.get ⟨i, h⟩) := by
  unfold load
  rw [List.getElem?_eq_getElem h]
  rfl

theorem crc_loop_take (buf : List Nat) (n crc : Nat) (h : n ≤ buf.length) :
    crc_loop buf n crc = .ok ((buf.take n).foldl crc_step crc) := by
  have e := crc_loop_append (buf.take n) (buf.drop n) crc
  rw [List.take_append_drop, List.length_take, Nat.min_eq_left h] at e
  exact e

theorem etl_crc16_take (buf : List Nat) (n : Nat) (h : n ≤ buf.length) :
    etl_crc16 buf n = .ok ((buf.take n).foldl crc_step 0xffff ^^^ 0xffff) := by
  unfold etl_crc16
  rw [crc_loop_take buf n _ h]

theorem load_bytes_of_le (src : List Nat) (n : Nat) (h : n ≤ src.length) :
    load_bytes src n = .ok (src.take n) := by
  unfold load_bytes
  rw [if_pos h]

/-! ## Error detection of the checksum -/

theorem crc_bit_lt (x : Nat) (h : x < 65536) : crc_bit x < 65536 := by
  rw [crc_bit_eq]
  have h1 : x / 2 < 2 ^ 16 := by omega
  have h2 : 0x8408 * (x % 2) < 2 ^ 16 := by
    rcases Nat.mod_two_eq_zero_or_one x with h | h <;> rw [h] <;> norm_num
  exact Nat.xor_lt_two_pow (n := 16) h1 h2

theorem crc_bit_parity (x y : Nat) (hx : x < 65536) (hy : y < 65536)
    (h : crc_bit x = crc_bit y) : x % 2 = y % 2 := by
  rw [crc_bit_eq, crc_bit_eq] at h
  have hbx : (x / 2).testBit 15 = false := Nat.testBit_lt_two_pow (by omega)
  have hby : (y / 2).testBit 15 = false := Nat.testBit_lt_two_pow (by omega)
  have hp : (0x8408 : Nat).testBit 15 = true := by decide
  have h15 := congrArg (fun z => Nat.testBit z 15) h
  simp only [Nat.testBit_xor, hbx, hby] at h15
  rcases Nat.mod_two_eq_zero_or_one x with h1 | h1 <;>
    rcases Nat.mod_two_eq_zero_or_one y with h2 | h2 <;>
    rw [h1, h2] at h15 ⊢ <;> simp [hp] at h15

theorem crc_bit_injective (x y : Nat) (hx : x < 65536) (hy : y < 65536)
    (h : crc_bit x = crc_bit y) : x = y := by
  have hp := crc_bit_parity x y hx hy h
  rw [crc_bit_eq, crc_bit_eq, hp] at h
  have hd : x / 2 = y / 2 := Nat.xor_left_inj.mp h
  omega

theorem crc_bit_iterate_lt (k x : Nat) (h : x < 65536) : crc_bit^[k] x < 65536 := by
  induction k generalizing x with
  | zero => exact h
  | succ k ih =>
    rw [Function.iterate_succ_apply]
    exact ih _ (crc_bit_lt x h)

theorem crc_bit_iterate_injective (k x y : Nat) (hx : x < 65536) (hy : y < 65536)
    (h : crc_bit^[k] x = crc_bit^[k] y) : x = y := by
  induction k generalizing x y with
  | zero => exact h
  | succ k ih =>
    rw [Function.iterate_succ_apply, Function.iterate_succ_apply] at h
    exact crc_bit_injective x y hx hy (ih _ _ (crc_bit_lt x hx) (crc_bit_lt y hy) h)

theorem xor_byte_lt (r b : Nat) (hr : r < 65536) (hb : b < 256) : r ^^^ b < 65536 :=
  Nat.xor_lt_two_pow (n := 16) hr (by omega)

/-- Two different registers stay different after the same byte. -/
theorem crc_step_register_ne (r1 r2 b : Nat) (h1 : r1 < 65536) (h2 : r2 < 65536)
    (hb : b < 256) (hne : r1 ≠ r2) : crc_step r1 b ≠ crc_step r2 b := by
  rw [crc_step_eq r1 b hb, crc_step_eq r2 b hb]
  intro h
  have := crc_bit_iterate_injective 8 _ _ (xor_byte_lt r1 b h1 hb) (xor_byte_lt r2 b h2 hb) h
  exact hne (Nat.xor_left_inj.mp this)

/-- Two different bytes lead one register to different registers. -/
theorem crc_step_byte_ne (r b1 b2 : Nat) (hr : r < 65536) (h1 : b1 < 256) (h2 : b2 < 256)
    (hne : b1 ≠ b2) : crc_step r b1 ≠ crc_step r b2 := by
  rw [crc_step_eq r b1 h1, crc_step_eq r b2 h2]
  intro h
  have := crc_bit_iterate_injective 8 _ _ (xor_byte_lt r b1 hr h1) (xor_byte_lt r b2 hr h2) h
  exact hne (Nat.xor_right_inj.mp this)

theorem foldl_crc_step_ne (post : List Nat) (r1 r2 : Nat) (h1 : r1 < 65536) (h2 : r2 < 65536)
    (hpost : ∀ b ∈ post, b < 256) (hne : r1 ≠ r2) :
    post.foldl crc_step r1 ≠ post.foldl crc_step r2 := by
  induction post generalizing r1 r2 with
  | nil => exact hne
  | cons b post ih =>
    rw [List.foldl_cons, List.foldl_cons]
    exact ih _ _ (crc_step_lt r1 b h1) (crc_step_lt r2 b h2)
      (fun c hc => hpost c (List.mem_cons_of_mem b hc))
      (crc_step_register_ne r1 r2 b h1 h2 (hpost b (List.mem_cons_self b post)) hne)

/-- Changing one byte of a byte sequence changes its checksum register. -/
theorem crc_fold_byte_ne (pre post : List Nat) (b1 b2 crc : Nat) (hcrc : crc < 65536)
    (h1 : b1 < 256) (h2 : b2 < 256) (hpost : ∀ b ∈ post, b < 256) (hne : b1 ≠ b2) :
    (pre ++ b1 :: post).foldl crc_step crc ≠ (pre ++ b2 :: post).foldl crc_step crc := by
  rw [List.foldl_append, List.foldl_append, List.foldl_cons, List.foldl_cons]
  have hr := foldl_crc_step_lt pre crc hcrc
  exact foldl_crc_step_ne post _ _ (crc_step_lt _ b1 hr) (crc_step_lt _ b2 hr) hpost
    (crc_step_byte_ne _ b1 b2 hr h1 h2 hne)

theorem flip_bit_lt (b k : Nat) (hb : b < 256) (hk : k < 8) : b ^^^ 2 ^ k < 256 := by
  have h2 : 2 ^ k < 2 ^ 8 := Nat.pow_lt_pow_right (by norm_num) hk
  exact Nat.xor_lt_two_pow (n := 8) hb h2

theorem flip_bit_ne (b k : Nat) : b ≠ b ^^^ 2 ^ k := by
  intro h
  have h0 : b ^^^ 0 = b ^^^ 2 ^ k := by rw [Nat.xor_zero]; exact h
  have := Nat.xor_right_inj.mp h0
  have hp : 0 < 2 ^ k := Nat.pos_pow_of_pos k (by norm_num)
  omega

/-- Flipping one bit of one byte changes the checksum. -/
theorem crc_value_flip_ne (B : List Nat) (i k : Nat) (hB : ∀ b ∈ B, b < 256)
    (hi : i < B.length) (hk : k < 8) :
    B.foldl crc_step 0xffff ^^^ 0xffff ≠
      (B.set i (B.get ⟨i, hi⟩ ^^^ 2 ^ k)).foldl crc_step 0xffff ^^^ 0xffff := by
  have hset : B.set i (B.get ⟨i, hi⟩ ^^^ 2 ^ k) =
      B.take i ++ (B.get ⟨i, hi⟩ ^^^ 2 ^ k) :: B.drop (i + 1) :=
    List.set_eq_take_append_cons_drop.trans (by rw [if_pos hi])
  have hB' : B = B.take i ++ B.get ⟨i, hi⟩ :: B.drop (i + 1) := by
    conv_lhs => rw [← List.take_append_drop i B, List.drop_eq_getElem_cons hi]
    rfl
  have hb : B.get ⟨i, hi⟩ < 256 := hB _ (List.get_mem B i hi)
  have hpost : ∀ b ∈ B.drop (i + 1), b < 256 := fun b hb => hB b (List.mem_of_mem_drop hb)
  intro h
  have h' := Nat.xor_left_inj.mp h
  rw [hset] at h'
  conv_lhs at h' => rw [hB']
  exact crc_fold_byte_ne _ _ _ _ _ (by norm_num) hb (flip_bit_lt _ k hb hk) hpost
    (flip_bit_ne _ k) h'

/-- C18. For every byte sequence `B` and every sequence obtained from it by
flipping exactly one bit of exactly one byte, `etl_crc16` returns different
checksums. -/
theorem etl_crc16_detects_single_bit (B : List Nat) (i k : Nat) (hB : ∀ b ∈ B, b < 256)
    (hi : i < B.length) (hk : k < 8) :
    ∃ c c', etl_crc16 B B.length = .ok c ∧
      etl_crc16 (B.set i (B.get ⟨i, hi⟩ ^^^ 2 ^ k))
        (B.set i (B.get ⟨i, hi⟩ ^^^ 2 ^ k)).length = .ok c' ∧
      c ≠ c' :=
  ⟨_, _, etl_crc16_exact B, etl_crc16_exact _, crc_value_flip_ne B i k hB hi hk⟩

set_option maxRecDepth 100000 in
theorem etl_crc16_detects_single_bit_witness :
    ((∀ b ∈ [0x01, 0x02], b < 256) ∧ 1 < [0x01, 0x02].length ∧ 0 < 8) ∧
    (∃ c c', etl_crc16 [0x01, 0x02] [0x01, 0x02].length = .ok c ∧
      etl_crc16 ([0x01, 0x02].set 1 ([0x01, 0x02].get ⟨1, by decide⟩ ^^^ 2 ^ 0))
        ([0x01, 0x02].set 1 ([0x01, 0x02].get ⟨1, by decide⟩ ^^^ 2 ^ 0)).length = .ok c' ∧
      c ≠ c') ∧
    [0x01, 0x02].set 1 ([0x01, 0x02].get ⟨1, by decide⟩ ^^^ 2 ^ 0) = [0x01, 0x03] ∧
    etl_crc16 [0x01, 0x02] 2 = .ok 0x358D ∧ etl_crc16 [0x01, 0x03] 2 = .ok 0x2404 :=
  ⟨⟨by decide, by decide, by decide⟩,
    etl_crc16_detects_single_bit [0x01, 0x02] 1 0 (by decide) (by decide) (by decide),
    rfl, rfl, rfl⟩

theorem shiftRight_xor (a b k : Nat) : (a ^^^ b) >>> k = (a >>> k) ^^^ (b >>> k) := by
  apply Nat.eq_of_testBit_eq
  intro i
  simp only [Nat.testBit_shiftRight, Nat.testBit_xor]

theorem xor_swap_cancel (a h b : Nat) : (a ^^^ h) ^^^ (h ^^^ b) = a ^^^ b := by
  rw [Nat.xor_assoc, ← Nat.xor_assoc h h b, Nat.xor_self, Nat.zero_xor]

/-- Feeding the complemented register, low byte first, into the checksum loop
leaves the register 0xF0B8 whatever the register was. -/
theorem crc_step_residue (r : Nat) (hr : r < 65536) :
    crc_step (crc_step r ((r ^^^ 0xffff) % 256)) ((r ^^^ 0xffff) / 256) = 0xF0B8 := by
  have hlo : (r ^^^ 0xffff) % 256 = (r &&& 0xff) ^^^ 0xff := by
    have e : (0xffff : Nat) &&& 0xff = 0xff := by decide
    rw [← low_byte_eq, Nat.and_xor_distrib_right, e]
  have hhi : (r ^^^ 0xffff) / 256 = (r >>> 8) ^^^ 0xff := by
    have : (r ^^^ 0xffff) / 256 = (r ^^^ 0xffff) >>> 8 := (Nat.shiftRight_eq_div_pow _ 8).symm
    have e : (0xffff : Nat) >>> 8 = 0xff := by decide
    rw [this, shiftRight_xor, e]
  have hh : r >>> 8 < 256 := by
    rw [Nat.shiftRight_eq_div_pow]
    omega
  have hidx1 : (r ^^^ ((r &&& 0xff) ^^^ 0xff)) &&& 0xff = 0xff := by
    rw [Nat.and_xor_distrib_right, Nat.and_xor_distrib_right, Nat.and_assoc]
    have e1 : (0xff : Nat) &&& 0xff = 0xff := by decide
    rw [e1, Nat.xor_cancel_left]
  have ht1 : crc_table.getD 0xff 0 = 0x0f78 := by decide
  have hstep1 : crc_step r ((r &&& 0xff) ^^^ 0xff) = 0x0f78 ^^^ (r >>> 8) := by
    unfold crc_step
    rw [hidx1, ht1]
  have hidx2 : ((0x0f78 ^^^ (r >>> 8)) ^^^ ((r >>> 8) ^^^ 0xff)) &&& 0xff = 0x87 := by
    rw [xor_swap_cancel]
    decide
  have ht2 : crc_table.getD 0x87 0 = 0xf0b7 := by decide
  have hsh : (0x0f78 ^^^ (r >>> 8)) >>> 8 = 0x0f := by
    rw [shiftRight_xor]
    have e : (r >>> 8) >>> 8 = 0 := by
      rw [Nat.shiftRight_eq_div_pow (r >>> 8) 8]
      exact Nat.div_eq_of_lt hh
    rw [e]
    decide
  rw [hlo, hhi, hstep1]
  unfold crc_step
  rw [hidx2, ht2, hsh]
  decide

/-- C19. For every byte sequence `P`, with `c = etl_crc16(P)`, the checksum of
`P` followed by the two checksum bytes in little-endian order,
`P ++ [c mod 256, c div 256]`, is the constant 0x0F47. -/
theorem etl_crc16_residue (P : List Nat) :
    ∃ c, etl_crc16 P P.length = .ok c ∧
      etl_crc16 (P ++ [c % 256, c / 256]) (P ++ [c % 256, c / 256]).length = .ok 0x0F47 := by
  refine ⟨_, etl_crc16_exact P, ?_⟩
  rw [etl_crc16_exact, List.foldl_append, List.foldl_cons, List.foldl_cons, List.foldl_nil,
    crc_step_residue _ (foldl_crc_step_lt P _ (by norm_num))]
  rfl

/-! ## Sequencing, counters and stores -/

theorem ok_bind {α β : Type} (a : α) (f : α → Except Fault β) :
    (Except.ok a >>= f) = f a := rfl

theorem error_bind {α β : Type} (e : Fault) (f : α → Except Fault β) :
    ((Except.error e : Except Fault α) >>= f) = .error e := rfl

theorem bind_eq_ok {α β : Type} (x : Except Fault α) (f : α → Except Fault β) (r : β) :
    (x >>= f) = .ok r ↔ ∃ a, x = .ok a ∧ f a = .ok r := by
  cases x with
  | error e =>
    rw [error_bind]
    constructor
    · intro h; cases h
    · rintro ⟨a, ha, _⟩; cases ha
  | ok a =>
    rw [ok_bind]
    constructor
    · intro h; exact ⟨a, rfl, h⟩
    · rintro ⟨a', ha, h⟩; cases ha; exact h

theorem load_eq_ok (input : List Nat) (i b : Nat) :
    load input i = .ok b ↔ input[i]? = some b := by
  unfold load
  cases h : input[i]? with
  | none => simp
  | some c =>
    constructor
    · intro h'; cases h'; rfl
    · intro h'; cases h'; rfl

theorem int_inc_eq_ok (i j : Nat) : int_inc i = .ok j ↔ i < INT_MAX ∧ j = i + 1 := by
  unfold int_inc
  by_cases h : i < INT_MAX
  · rw [if_pos h]
    constructor
    · intro h'; cases h'; exact ⟨h, rfl⟩
    · rintro ⟨_, rfl⟩; rfl
  · rw [if_neg h]
    constructor
    · intro h'; cases h'
    · rintro ⟨h', _⟩; exact absurd h' h

theorem store_eq_ok (buffer b : List Nat) (o v : Nat) :
    store buffer o v = .ok b ↔ o < buffer.length ∧ b = buffer.set o v := by
  unfold store
  by_cases h : o < buffer.length
  · rw [if_pos h]
    constructor
    · intro h'; cases h'; exact ⟨h, rfl⟩
    · rintro ⟨_, rfl⟩; rfl
  · rw [if_neg h]
    constructor
    · intro h'; cases h'
    · rintro ⟨h', _⟩; exact absurd h' h

theorem int_inc_of_lt (i : Nat) (h : i < INT_MAX) : int_inc i = .ok (i + 1) := by
  unfold int_inc
  rw [if_pos h]

theorem store_of_lt (buffer : List Nat) (o v : Nat) (h : o < buffer.length) :
    store buffer o v = .ok (buffer.set o v) := by
  unfold store
  rw [if_pos h]

theorem store_append_zeros (out : List Nat) (k v : Nat) :
    store (out ++ List.replicate (k + 1) 0) out.length v =
      .ok ((out ++ [v]) ++ List.replicate k 0) := by
  rw [store_of_lt _ _ _ (by simp), List.set_append_right _ _ (le_refl _)]
  simp [List.replicate_succ]

theorem store_bytes_zeros (src out : List Nat) (k : Nat) :
    store_bytes (out ++ List.replicate (src.length + k) 0) out.length src =
      .ok (out ++ src ++ List.replicate k 0) := by
  induction src generalizing out with
  | nil => simp [store_bytes]
  | cons b src ih =>
    have e : (b :: src).length + k = (src.length + k) + 1 := by simp; omega
    rw [e, store_bytes, store_append_zeros, ok_bind]
    have h := ih (out ++ [b])
    simp only [List.length_append, List.length_singleton] at h
    rw [h]
    simp

/-! ## Escape -/

theorem length_escape_ref (X : List Nat) :
    (escape_ref X).length = X.length + reserved_count X := by
  induction X with
  | nil => rfl
  | cons b X ih =>
    simp only [escape_ref, reserved_count, List.length_append, List.length_cons, ih, escape_block]
    split <;> simp <;> omega

theorem reserved_count_le (X : List Nat) : reserved_count X ≤ X.length := by
  induction X with
  | nil => exact le_refl _
  | cons b X ih =>
    simp only [reserved_count, List.length_cons]
    split <;> omega

theorem escape_size_spec (rest pre : List Nat) (size : Nat) (hs : size < U32)
    (hi : pre.length + rest.length ≤ INT_MAX) :
    escape_size (pre ++ rest) rest.length pre.length size =
      .ok ((size + rest.length + reserved_count rest) % U32) := by
  induction rest generalizing pre size with
  | nil =>
    simp only [escape_size, List.length_nil, reserved_count, Nat.add_zero]
    rw [Nat.mod_eq_of_lt hs]
  | cons b rest ih =>
    have hpre : pre ++ b :: rest = (pre ++ [b]) ++ rest := by simp
    have hlen : (pre ++ [b]).length = pre.length + 1 := by simp
    simp only [List.length_cons] at hi
    have hinc : int_inc pre.length = .ok (pre.length + 1) := int_inc_of_lt _ (by omega)
    simp only [List.length_cons, escape_size, load_append, ok_bind, reserved_count, hinc]
    unfold U32 at *
    split
    · rw [hpre, ← hlen, ih _ _ (Nat.mod_lt _ (by norm_num)) (by rw [hlen]; omega)]
      congr 1
      omega
    · rw [hpre, ← hlen, ih _ _ (Nat.mod_lt _ (by norm_num)) (by rw [hlen]; omega)]
      congr 1
      omega

theorem escape_copy_spec (rest pre out : List Nat) (k : Nat)
    (hi : pre.length + rest.length ≤ INT_MAX)
    (ho : out.length + (escape_ref rest).length ≤ INT_MAX) :
    escape_copy (pre ++ rest) rest.length pre.length out.length
        (out ++ List.replicate ((escape_ref rest).length + k) 0) =
      .ok (out ++ escape_ref rest ++ List.replicate k 0,
        out.length + (escape_ref rest).length) := by
  induction rest generalizing pre out with
  | nil => simp [escape_copy, escape_ref]
  | cons b rest ih =>
    have hpre : pre ++ b :: rest = (pre ++ [b]) ++ rest := by simp
    have hlen : (pre ++ [b]).length = pre.length + 1 := by simp
    simp only [List.length_cons] at hi
    have hinc : int_inc pre.length = .ok (pre.length + 1) := int_inc_of_lt _ (by omega)
    simp only [List.length_cons, escape_copy, load_append, ok_bind]
    by_cases h1 : b = 0x7E
    · subst h1
      have e : (escape_ref (126 :: rest)).length + k = ((escape_ref rest).length + k) + 1 + 1 := by
        simp [escape_ref, escape_block]; omega
      have e2 : (escape_ref (126 :: rest)).length = (escape_ref rest).length + 2 := by
        simp [escape_ref, escape_block]
      rw [e2] at ho
      have hl : out.length + 1 = (out ++ [125]).length := by simp
      have hl2 : out.length + 1 + 1 = (out ++ [125] ++ [94]).length := by simp
      have hx : (126 ^^^ 32 : Nat) = 94 := by decide
      have ho1 : int_inc out.length = .ok (out.length + 1) := int_inc_of_lt _ (by omega)
      have ho2 : int_inc (out.length + 1) = .ok (out.length + 1 + 1) :=
        int_inc_of_lt _ (by omega)
      rw [if_pos rfl, hx, e, store_append_zeros, ok_bind, ho1, ok_bind, hl, store_append_zeros,
        ok_bind, ← hl, ok_bind, ho2, ok_bind, hinc, ok_bind, hpre, ← hlen, hl2,
        ih _ _ (by rw [hlen]; omega) (by rw [← hl2]; omega)]
      simp [escape_ref, escape_block]
      omega
    · by_cases h2 : b = 0x7D
      · subst h2
        have e : (escape_ref (125 :: rest)).length + k =
            ((escape_ref rest).length + k) + 1 + 1 := by
          simp [escape_ref, escape_block]; omega
        have e2 : (escape_ref (125 :: rest)).length = (escape_ref rest).length + 2 := by
          simp [escape_ref, escape_block]
        rw [e2] at ho
        have hl : out.length + 1 = (out ++ [125]).length := by simp
        have hl2 : out.length + 1 + 1 = (out ++ [125] ++ [93]).length := by simp
        have hx : (125 ^^^ 32 : Nat) = 93 := by decide
        have ho1 : int_inc out.length = .ok (out.length + 1) := int_inc_of_lt _ (by omega)
        have ho2 : int_inc (out.length + 1) = .ok (out.length + 1 + 1) :=
          int_inc_of_lt _ (by omega)
        rw [if_neg (by decide), if_pos rfl, hx, e, store_append_zeros, ok_bind, ho1, ok_bind, hl,
          store_append_zeros, ok_bind, ← hl, ok_bind, ho2, ok_bind, hinc, ok_bind, hpre,
          ← hlen, hl2, ih _ _ (by rw [hlen]; omega) (by rw [← hl2]; omega)]
        simp [escape_ref, escape_block]
        omega
      · have e : (escape_ref (b :: rest)).length + k = ((escape_ref rest).length + k) + 1 := by
          simp [escape_ref, escape_block, h1, h2]; omega
        have e2 : (escape_ref (b :: rest)).length = (escape_ref rest).length + 1 := by
          simp [escape_ref, escape_block, h1, h2]
        rw [e2] at ho
        have hl : out.length + 1 = (out ++ [b]).length := by simp
        have ho1 : int_inc out.length = .ok (out.length + 1) := int_inc_of_lt _ (by omega)
        rw [if_neg h1, if_neg h2, e, store_append_zeros, ok_bind, ho1, ok_bind, hinc, ok_bind,
          hpre, ← hlen, hl, ih _ _ (by rw [hlen]; omega) (by rw [← hl]; omega)]
        simp [escape_ref, escape_block, h1, h2]
        omega

theorem escape_size_eq (X : List Nat) (h : X.length + reserved_count X < 2 ^ 31) :
    escape_size X X.length 0 0 = .ok (X.length + reserved_count X) := by
  have hs := escape_size_spec X [] 0 (by unfold U32; norm_num)
    (by unfold INT_MAX; simp only [List.length_nil]; omega)
  simp only [List.nil_append, List.length_nil, Nat.zero_add] at hs
  rw [hs, Nat.mod_eq_of_lt (by unfold U32; omega)]

theorem escape_copy_eq (X : List Nat) (h : X.length + reserved_count X < 2 ^ 31) :
    escape_copy X X.length 0 0 (List.replicate (X.length + reserved_count X) 0) =
      .ok (escape_ref X, X.length + reserved_count X) := by
  have hc := escape_copy_spec X [] [] 0
    (by unfold INT_MAX; simp only [List.length_nil]; omega)
    (by rw [length_escape_ref]; unfold INT_MAX; simp only [List.length_nil]; omega)
  simp only [List.nil_append, List.length_nil, Nat.zero_add, Nat.add_zero,
    List.replicate_zero, List.append_nil] at hc
  rw [← length_escape_ref, hc]

theorem etl_escape_eq (X : List Nat) (h : X.length + reserved_count X < 2 ^ 31) :
    etl_escape X X.length = .ok ⟨0, escape_ref X, X.length + reserved_count X⟩ := by
  unfold etl_escape
  rw [escape_size_eq X h, ok_bind, escape_copy_eq X h, ok_bind]
  rfl

theorem no_literal_reserved_nil : no_literal_reserved [] := by
  unfold no_literal_reserved
  constructor <;> intro j <;> simp

theorem no_literal_reserved_cons (b : Nat) (out : List Nat) (h1 : b ≠ 0x7E) (h2 : b ≠ 0x7D)
    (h : no_literal_reserved out) : no_literal_reserved (b :: out) := by
  constructor
  · intro j
    cases j with
    | zero => simpa using h1
    | succ j => simpa using h.1 j
  · intro j
    cases j with
    | zero => intro hj; simp at hj; exact absurd hj h2
    | succ j => simpa using h.2 j

theorem no_literal_reserved_pair (c : Nat) (out : List Nat) (hc : c = 0x5E ∨ c = 0x5D)
    (h : no_literal_reserved out) : no_literal_reserved (0x7D :: c :: out) := by
  have hc1 : c ≠ 0x7E := by rcases hc with rfl | rfl <;> decide
  have hc2 : c ≠ 0x7D := by rcases hc with rfl | rfl <;> decide
  have h' := no_literal_reserved_cons c out hc1 hc2 h
  constructor
  · intro j
    cases j with
    | zero => simp
    | succ j => simpa using h'.1 j
  · intro j
    cases j with
    | zero => intro _; rcases hc with rfl | rfl <;> simp
    | succ j => simpa using h'.2 j

theorem no_literal_reserved_escape_ref (X : List Nat) : no_literal_reserved (escape_ref X) := by
  induction X with
  | nil => exact no_literal_reserved_nil
  | cons b X ih =>
    unfold escape_ref escape_block
    by_cases h1 : b = 0x7E
    · subst h1
      exact no_literal_reserved_pair _ _ (Or.inl (by decide)) ih
    · by_cases h2 : b = 0x7D
      · subst h2
        exact no_literal_reserved_pair _ _ (Or.inr (by decide)) ih
      · rw [if_neg (by simp [h1, h2])]
        exact no_literal_reserved_cons b _ h1 h2 ih

/-- C4. For every byte sequence `X` whose escaped length fits the `int` write
cursor (`|X|` plus the number of reserved bytes of `X` below `2 ^ 31`), the
output of `etl_escape` is the concatenation, in input order, of one block per
input byte: `[0x7D, b XOR 0x20]` for `b` equal to 0x7E or 0x7D, `[b]`
otherwise; the reported size is the length of that concatenation. -/
theorem etl_escape_reference (X : List Nat) (h : X.length + reserved_count X < 2 ^ 31) :
    etl_escape X X.length = .ok ⟨0, escape_ref X, (escape_ref X).length⟩ := by
  rw [length_escape_ref, etl_escape_eq X h]

theorem etl_escape_reference_witness :
    [0x7E, 0x41, 0x7D].length + reserved_count [0x7E, 0x41, 0x7D] < 2 ^ 31 ∧
      etl_escape [0x7E, 0x41, 0x7D] [0x7E, 0x41, 0x7D].length =
        .ok ⟨0, escape_ref [0x7E, 0x41, 0x7D], (escape_ref [0x7E, 0x41, 0x7D]).length⟩ ∧
      escape_ref [0x7E, 0x41, 0x7D] = [0x7D, 0x5E, 0x41, 0x7D, 0x5D] ∧
      etl_escape [0x7E, 0x41, 0x7D] 3 = .ok ⟨0, [0x7D, 0x5E, 0x41, 0x7D, 0x5D], 5⟩ ∧
      etl_escape [] 0 = .ok ⟨0, [], 0⟩ :=
  ⟨by decide, etl_escape_reference [0x7E, 0x41, 0x7D] (by decide), rfl, rfl, rfl⟩

/-- C5. For every byte sequence `X` whose escaped length fits the `int` write
cursor (`|X|` plus the number of reserved bytes of `X` below `2 ^ 31`),
`etl_escape` returns an output in which no byte equals 0x7E and every 0x7D is
the first byte of a two-byte pair: it is not the last byte and the next byte
is 0x5E or 0x5D. -/
theorem etl_escape_no_literal_reserved (X : List Nat)
    (h : X.length + reserved_count X < 2 ^ 31) :
    ∃ r, etl_escape X X.length = .ok r ∧
      (∀ j : Nat, r.output[j]? ≠ some 0x7E) ∧
      (∀ j : Nat, r.output[j]? = some 0x7D →
        j + 1 < r.output.length ∧
          (r.output[j + 1]? = some 0x5E ∨ r.output[j + 1]? = some 0x5D)) := by
  refine ⟨_, etl_escape_eq X h, (no_literal_reserved_escape_ref X).1, ?_⟩
  intro j hj
  have h2 := (no_literal_reserved_escape_ref X).2 j hj
  refine ⟨?_, h2⟩
  show j + 1 < (escape_ref X).length
  by_contra hlt
  rw [List.getElem?_eq_none (by omega)] at h2
  simp at h2

theorem etl_escape_no_literal_reserved_witness :
    [0x7E, 0x7D, 0x41].length + reserved_count [0x7E, 0x7D, 0x41] < 2 ^ 31 ∧
    (∃ r, etl_escape [0x7E, 0x7D, 0x41] [0x7E, 0x7D, 0x41].length = .ok r ∧
      (∀ j : Nat, r.output[j]? ≠ some 0x7E) ∧
      (∀ j : Nat, r.output[j]? = some 0x7D →
        j + 1 < r.output.length ∧
          (r.output[j + 1]? = some 0x5E ∨ r.output[j + 1]? = some 0x5D))) ∧
    etl_escape [0x7E, 0x7D, 0x41] 3 = .ok ⟨0, [0x7D, 0x5E, 0x7D, 0x5D, 0x41], 5⟩ :=
  ⟨by decide, etl_escape_no_literal_reserved [0x7E, 0x7D, 0x41] (by decide), rfl⟩

/-- C7. For every byte sequence `X` whose escaped length fits the `int` write
cursor (`|X|` plus the number of reserved bytes of `X` below `2 ^ 31`), the
sizing pass of `etl_escape` computes the input length plus the number of
reserved bytes, the copy pass run on a zeroed buffer of that size makes every
store inside the buffer and ends with its write cursor equal to that size,
and the buffer and size returned have that length. -/
theorem etl_escape_exact_size (X : List Nat) (h : X.length + reserved_count X < 2 ^ 31) :
    escape_size X X.length 0 0 = .ok (X.length + reserved_count X) ∧
    (∃ buffer, escape_copy X X.length 0 0 (List.replicate (X.length + reserved_count X) 0) =
        .ok (buffer, X.length + reserved_count X) ∧
      etl_escape X X.length = .ok ⟨0, buffer, X.length + reserved_count X⟩ ∧
      buffer.length = X.length + reserved_count X) :=
  ⟨escape_size_eq X h, escape_ref X, escape_copy_eq X h, etl_escape_eq X h,
    length_escape_ref X⟩

theorem etl_escape_exact_size_witness :
    [0x01, 0x7E, 0x7D].length + reserved_count [0x01, 0x7E, 0x7D] < 2 ^ 31 ∧
    (escape_size [0x01, 0x7E, 0x7D] [0x01, 0x7E, 0x7D].length 0 0 =
        .ok ([0x01, 0x7E, 0x7D].length + reserved_count [0x01, 0x7E, 0x7D]) ∧
    (∃ buffer, escape_copy [0x01, 0x7E, 0x7D] [0x01, 0x7E, 0x7D].length 0 0
          (List.replicate ([0x01, 0x7E, 0x7D].length + reserved_count [0x01, 0x7E, 0x7D]) 0) =
        .ok (buffer, [0x01, 0x7E, 0x7D].length + reserved_count [0x01, 0x7E, 0x7D]) ∧
      etl_escape [0x01, 0x7E, 0x7D] [0x01, 0x7E, 0x7D].length =
        .ok ⟨0, buffer, [0x01, 0x7E, 0x7D].length + reserved_count [0x01, 0x7E, 0x7D]⟩ ∧
      buffer.length = [0x01, 0x7E, 0x7D].length + reserved_count [0x01, 0x7E, 0x7D])) ∧
    [0x01, 0x7E, 0x7D].length + reserved_count [0x01, 0x7E, 0x7D] = 5 ∧
    escape_copy [0x01, 0x7E, 0x7D] 3 0 0 (List.replicate 5 0) =
      .ok ([0x01, 0x7D, 0x5E, 0x7D, 0x5D], 5) ∧
    escape_copy [0x01, 0x7E, 0x7D] 3 0 0 (List.replicate 4 0) = .error .oob_write :=
  ⟨by decide, etl_escape_exact_size [0x01, 0x7E, 0x7D] (by decide), rfl, rfl, rfl⟩

/-! ## Request -/

theorem etl_request_eq (P : List Nat) (c : Nat)
    (hc : c = P.foldl crc_step 0xffff ^^^ 0xffff)
    (h : (P ++ [c % 256, c / 256]).length + reserved_count (P ++ [c % 256, c / 256]) < 2 ^ 31) :
    etl_request P P.length =
      .ok ⟨0, [0x7E] ++ escape_ref (P ++ [c % 256, c / 256]) ++ [0x7E],
        (escape_ref (P ++ [c % 256, c / 256])).length + 2⟩ := by
  have hclt : c < 65536 := hc ▸ crc_value_lt P
  have hlen : (P ++ [c % 256, c / 256]).length = P.length + 2 := by simp
  have hE := length_escape_ref (P ++ [c % 256, c / 256])
  have hm1 : (P.length + 2) % U32 = P.length + 2 := Nat.mod_eq_of_lt (by unfold U32; omega)
  have hm4 : (P.length + 1) % U32 = P.length + 1 := Nat.mod_eq_of_lt (by unfold U32; omega)
  have hin0 : store_bytes (List.replicate (P.length + 2) 0) 0 P =
      .ok (P ++ List.replicate 2 0) := by
    have h0 := store_bytes_zeros P [] 2
    simpa only [List.nil_append, List.length_nil] using h0
  have hin1 : store (P ++ List.replicate 2 0) P.length (c &&& 0xFF) =
      .ok (P ++ [c % 256] ++ List.replicate 1 0) := by
    rw [low_byte_eq]
    exact store_append_zeros P 1 (c % 256)
  have hin2 : store (P ++ [c % 256] ++ List.replicate 1 0) (P.length + 1) ((c >>> 8) &&& 0xFF) =
      .ok (P ++ [c % 256, c / 256]) := by
    rw [high_byte_eq c hclt]
    have h2 := store_append_zeros (P ++ [c % 256]) 0 (c / 256)
    simp only [List.length_append, List.length_singleton, List.replicate_zero,
      List.append_nil] at h2
    rw [h2]
    simp
  have hesc := etl_escape_eq (P ++ [c % 256, c / 256]) h
  rw [hlen] at hesc
  set E := escape_ref (P ++ [c % 256, c / 256]) with hEdef
  have hsz : P.length + 2 + reserved_count (P ++ [c % 256, c / 256]) = E.length := by omega
  have hm2 : (E.length + 2) % U32 = E.length + 2 := Nat.mod_eq_of_lt (by unfold U32; omega)
  have hm3 : (E.length + 1) % U32 = E.length + 1 := Nat.mod_eq_of_lt (by unfold U32; omega)
  have hb0 : store_bytes (List.replicate (E.length + 2) 0) 1 E =
      .ok ([0] ++ E ++ List.replicate 1 0) := by
    have h0 := store_bytes_zeros E [0] 1
    have e0 : List.replicate (E.length + 2) 0 = [0] ++ List.replicate (E.length + 1) 0 := by
      rw [List.replicate_succ]; rfl
    rw [e0]
    exact h0
  have hb1 : store ([0] ++ E ++ List.replicate 1 0) 0 0x7E =
      .ok ([0x7E] ++ E ++ List.replicate 1 0) := by
    rw [store_of_lt _ _ _ (by simp)]
    rfl
  have hb2 : store ([0x7E] ++ E ++ List.replicate 1 0) (E.length + 1) 0x7E =
      .ok ([0x7E] ++ E ++ [0x7E]) := by
    have h1 := store_append_zeros ([0x7E] ++ E) 0 0x7E
    simp only [List.length_append, List.length_singleton, List.replicate_zero,
      List.append_nil] at h1
    have e1 : E.length + 1 = 1 + E.length := by omega
    rw [e1, h1]
  unfold etl_request
  rw [load_bytes_exact, ok_bind, hm1, hin0, ok_bind, etl_crc16_exact, ← hc, ok_bind, hin1,
    ok_bind, hm4, hin2, ok_bind, hesc, ok_bind]
  simp only [hsz, load_bytes_exact, ok_bind, hm2, hm3, hb0, hb1, hb2]
  rfl

/-- C3. For every payload `P`, with `c = etl_crc16(P)`, whose escaped payload
and checksum fit the `int` write cursor of `etl_escape` (`|P| + 2` plus the
number of reserved bytes among the payload and the two checksum bytes below
`2 ^ 31`), `etl_request` returns the frame
`[0x7E] ++ escape(P ++ [c mod 256, c div 256]) ++ [0x7E]`: the checksum is taken
over the raw payload, appended low byte first, payload and checksum are
escaped together and wrapped in boundary markers; the reported size is the
length of that frame. -/
theorem etl_request_wire_format (P : List Nat) (c : Nat)
    (hc : etl_crc16 P P.length = .ok c)
    (h : (P ++ [c % 256, c / 256]).length + reserved_count (P ++ [c % 256, c / 256]) <
      2 ^ 31) :
    ∃ esc, etl_escape (P ++ [c % 256, c / 256]) (P.length + 2) = .ok esc ∧
      esc.output = escape_ref (P ++ [c % 256, c / 256]) ∧
      etl_request P P.length =
        .ok ⟨0, [0x7E] ++ esc.output ++ [0x7E], ([0x7E] ++ esc.output ++ [0x7E]).length⟩ := by
  have hc' : c = P.foldl crc_step 0xffff ^^^ 0xffff := by
    rw [etl_crc16_exact] at hc
    exact (Except.ok.inj hc).symm
  have hlen : (P ++ [c % 256, c / 256]).length = P.length + 2 := by simp
  have hesc := etl_escape_eq (P ++ [c % 256, c / 256]) h
  rw [hlen] at hesc
  refine ⟨_, hesc, rfl, ?_⟩
  rw [etl_request_eq P c hc' h]
  simp

set_option maxRecDepth 100000 in
theorem etl_request_wire_format_witness :
    (etl_crc16 [0x7E] [0x7E].length = .ok 0x6A81 ∧
      ([0x7E] ++ [0x6A81 % 256, 0x6A81 / 256]).length +
        reserved_count ([0x7E] ++ [0x6A81 % 256, 0x6A81 / 256]) < 2 ^ 31) ∧
    (∃ esc, etl_escape ([0x7E] ++ [0x6A81 % 256, 0x6A81 / 256]) ([0x7E].length + 2) = .ok esc ∧
      esc.output = escape_ref ([0x7E] ++ [0x6A81 % 256, 0x6A81 / 256]) ∧
      etl_request [0x7E] [0x7E].length =
        .ok ⟨0, [0x7E] ++ esc.output ++ [0x7E], ([0x7E] ++ esc.output ++ [0x7E]).length⟩) ∧
    etl_request [0x7E] 1 = .ok ⟨0, [0x7E, 0x7D, 0x5E, 0x81, 0x6A, 0x7E], 6⟩ ∧
    etl_crc16 [0x01, 0x02] 2 = .ok 0x358D ∧
    etl_request [0x01, 0x02] 2 = .ok ⟨0, [0x7E, 0x01, 0x02, 0x8D, 0x35, 0x7E], 6⟩ :=
  ⟨⟨rfl, by decide⟩, etl_request_wire_format [0x7E] 0x6A81 rfl (by decide), rfl, rfl, rfl⟩

theorem frame_well_formed (E : List Nat) (hnl : no_literal_reserved E) (hE : 2 ≤ E.length) :
    E.length + 2 = ([0x7E] ++ E ++ [0x7E]).length ∧
      4 ≤ ([0x7E] ++ E ++ [0x7E]).length ∧
      ([0x7E] ++ E ++ [0x7E])[0]? = some 0x7E ∧
      ([0x7E] ++ E ++ [0x7E])[([0x7E] ++ E ++ [0x7E]).length - 1]? = some 0x7E ∧
      (∀ j : Nat, 0 < j → j < ([0x7E] ++ E ++ [0x7E]).length - 1 →
        ([0x7E] ++ E ++ [0x7E])[j]? ≠ some 0x7E ∧
        (([0x7E] ++ E ++ [0x7E])[j]? = some 0x7D →
          j + 1 < ([0x7E] ++ E ++ [0x7E]).length - 1 ∧
            (([0x7E] ++ E ++ [0x7E])[j + 1]? = some 0x5E ∨
              ([0x7E] ++ E ++ [0x7E])[j + 1]? = some 0x5D))) := by
  have hlen : ([0x7E] ++ E ++ [0x7E]).length = E.length + 2 := by simp
  have hget : ∀ j : Nat, j < E.length → ([0x7E] ++ E ++ [0x7E])[j + 1]? = E[j]? := by
    intro j hj
    rw [List.append_assoc, List.singleton_append, List.getElem?_cons_succ,
      List.getElem?_append_left hj]
  rw [hlen]
  refine ⟨rfl, by omega, by simp, ?_, ?_⟩
  · rw [List.getElem?_append_right (by simp)]
    simp
  · intro j hj0 hj1
    obtain ⟨i, rfl⟩ : ∃ i, j = i + 1 := ⟨j - 1, by omega⟩
    have hi : i < E.length := by omega
    rw [hget i hi]
    refine ⟨hnl.1 i, ?_⟩
    intro h7
    have hnext := hnl.2 i h7
    have hi1 : i + 1 < E.length := by
      by_contra hlt
      rw [List.getElem?_eq_none (by omega)] at hnext
      simp at hnext
    rw [hget (i + 1) hi1]
    exact ⟨by omega, hnext⟩

/-- C6. For every payload `P`, the empty one included, with `c = etl_crc16(P)`,
whose escaped payload and checksum fit the `int` write cursor of `etl_escape`
(`|P| + 2` plus the number of reserved bytes among the payload and the two
checksum bytes below `2 ^ 31`), `etl_request` returns a frame of length at
least 4 whose first and last bytes are 0x7E and whose interior holds no
literal reserved byte: no interior byte is 0x7E, and every interior 0x7D is
followed by an interior byte equal to 0x5E or 0x5D. -/
theorem etl_request_well_formed (P : List Nat) (c : Nat)
    (hc : etl_crc16 P P.length = .ok c)
    (h : (P ++ [c % 256, c / 256]).length + reserved_count (P ++ [c % 256, c / 256]) <
      2 ^ 31) :
    ∃ r, etl_request P P.length = .ok r ∧
      r.outsize = r.output.length ∧
      4 ≤ r.output.length ∧
      r.output[0]? = some 0x7E ∧
      r.output[r.output.length - 1]? = some 0x7E ∧
      (∀ j : Nat, 0 < j → j < r.output.length - 1 →
        r.output[j]? ≠ some 0x7E ∧
        (r.output[j]? = some 0x7D →
          j + 1 < r.output.length - 1 ∧
            (r.output[j + 1]? = some 0x5E ∨ r.output[j + 1]? = some 0x5D))) := by
  have hc' : c = P.foldl crc_step 0xffff ^^^ 0xffff := by
    rw [etl_crc16_exact] at hc
    exact (Except.ok.inj hc).symm
  have hE : 2 ≤ (escape_ref (P ++ [c % 256, c / 256])).length := by
    rw [length_escape_ref]; simp; omega
  exact ⟨_, etl_request_eq P c hc' h,
    frame_well_formed _ (no_literal_reserved_escape_ref _) hE⟩

set_option maxRecDepth 100000 in
theorem etl_request_well_formed_witness :
    (etl_crc16 [0x60] [0x60].length = .ok 0x937E ∧
      ([0x60] ++ [0x937E % 256, 0x937E / 256]).length +
        reserved_count ([0x60] ++ [0x937E % 256, 0x937E / 256]) < 2 ^ 31) ∧
    (∃ r, etl_request [0x60] [0x60].length = .ok r ∧
      r.outsize = r.output.length ∧
      4 ≤ r.output.length ∧
      r.output[0]? = some 0x7E ∧
      r.output[r.output.length - 1]? = some 0x7E ∧
      (∀ j : Nat, 0 < j → j < r.output.length - 1 →
        r.output[j]? ≠ some 0x7E ∧
        (r.output[j]? = some 0x7D →
          j + 1 < r.output.length - 1 ∧
            (r.output[j + 1]? = some 0x5E ∨ r.output[j + 1]? = some 0x5D)))) ∧
    etl_request [0x60] 1 = .ok ⟨0, [0x7E, 0x60, 0x7D, 0x5E, 0x93, 0x7E], 6⟩ ∧
    etl_request [0x7D, 0x7E] 2 = .ok ⟨0, [0x7E, 0x7D, 0x5D, 0x7D, 0x5E, 0x02, 0xD5, 0x7E], 8⟩ ∧
    etl_request [] 0 = .ok ⟨0, [0x7E, 0x00, 0x00, 0x7E], 4⟩ :=
  ⟨⟨rfl, by decide⟩, etl_request_well_formed [0x60] 0x937E rfl (by decide), rfl, rfl, rfl⟩

/-! ## Sizing pass of unescape -/

theorem u32_dec (size : Nat) (h1 : 1 ≤ size) (hs : size < U32) :
    (U32 + size - 1) % U32 = size - 1 := by
  unfold U32 at *
  omega

theorem unescape_size_spec (input : List Nat) (i size : Nat) (hi : i < input.length)
    (hc : (input.take (i + 1)).count 0x7D ≤ size) (hs : size < U32) :
    unescape_size input i size = .ok (size - (input.take (i + 1)).count 0x7D) := by
  induction i generalizing size with
  | zero =>
    have htake : input.take 1 = [input.get ⟨0, hi⟩] := by
      rw [List.take_succ, List.getElem?_eq_getElem hi]
      rfl
    rw [htake, List.count_singleton'] at hc ⊢
    rw [unescape_size, load_of_lt input 0 hi]
    by_cases hb : input.get ⟨0, hi⟩ = 0x7D
    · rw [if_pos hb] at hc ⊢
      simp only [if_pos hb]
      rw [u32_dec size hc hs]
    · rw [if_neg hb]
      simp only [if_neg hb]
      rfl
  | succ i ih =>
    have htake : input.take (i + 1 + 1) = input.take (i + 1) ++ [input.get ⟨i + 1, hi⟩] := by
      rw [List.take_succ, List.getElem?_eq_getElem hi]
      rfl
    rw [htake, List.count_append, List.count_singleton'] at hc ⊢
    rw [unescape_size, load_of_lt input (i + 1) hi]
    by_cases hb : input.get ⟨i + 1, hi⟩ = 0x7D
    · rw [if_pos hb] at hc ⊢
      simp only [if_pos hb]
      rw [u32_dec size (by omega) hs, ih (size - 1) (by omega) (by omega) (by omega)]
      congr 1
      omega
    · rw [if_neg hb] at hc ⊢
      simp only [if_neg hb]
      rw [ih size (by omega) (by omega) hs]
      rfl

/-! ## Unescape: both passes leave the input, the copy pass leaves its buffer -/

theorem unescape_size_oob (input : List Nat) (i size : Nat) (h : input.length ≤ i) :
    unescape_size input i size = .error .oob_read := by
  cases i with
  | zero => rw [unescape_size, load_of_length_le input 0 h]
  | succ n => rw [unescape_size, load_of_length_le input (n + 1) h]

/-- One iteration of the copy loop of `etl_unescape` that returns: the cursors
after it, the store it made, and the byte it found at `input[i]`. -/
theorem unescape_copy_step (input : List Nat) (insize fuel i o : Nat) (buffer : List Nat)
    (r : List Nat × Nat) (hi : i ≤ insize)
    (h : unescape_copy input insize (fuel + 1) i o buffer = .ok r) :
    ∃ b v i', input[i]? = some b ∧ o < buffer.length ∧ o < INT_MAX ∧ i' ≤ INT_MAX ∧
      ((b = 0x7D ∧ i' = i + 2) ∨ (b ≠ 0x7D ∧ i' = i + 1)) ∧
      unescape_copy input insize fuel i' (o + 1) (buffer.set o v) = .ok r := by
  rw [unescape_copy, if_pos hi, bind_eq_ok] at h
  obtain ⟨b, hb, h⟩ := h
  rw [load_eq_ok] at hb
  by_cases h7 : b = 0x7D
  · rw [if_pos h7, bind_eq_ok] at h
    obtain ⟨i1, hi1, h⟩ := h
    rw [bind_eq_ok] at h
    obtain ⟨c, _, h⟩ := h
    rw [bind_eq_ok] at h
    obtain ⟨buf, hst, h⟩ := h
    rw [bind_eq_ok] at h
    obtain ⟨i2, hi2, h⟩ := h
    rw [bind_eq_ok] at h
    obtain ⟨o1, ho1, h⟩ := h
    rw [bind_eq_ok] at h
    obtain ⟨i3, hi3, h⟩ := h
    rw [int_inc_eq_ok] at hi1 hi2 hi3 ho1
    rw [store_eq_ok] at hst
    obtain ⟨hi2a, rfl⟩ := hi2
    obtain ⟨hi3a, rfl⟩ := hi3
    obtain ⟨ho1a, rfl⟩ := ho1
    obtain ⟨hsta, rfl⟩ := hst
    exact ⟨b, _, _, hb, hsta, ho1a, by omega, Or.inl ⟨h7, rfl⟩, h⟩
  · rw [if_neg h7, bind_eq_ok] at h
    obtain ⟨buf, hst, h⟩ := h
    rw [bind_eq_ok] at h
    obtain ⟨o1, ho1, h⟩ := h
    rw [bind_eq_ok] at h
    obtain ⟨i3, hi3, h⟩ := h
    rw [int_inc_eq_ok] at hi3 ho1
    rw [store_eq_ok] at hst
    obtain ⟨hi3a, rfl⟩ := hi3
    obtain ⟨ho1a, rfl⟩ := ho1
    obtain ⟨hsta, rfl⟩ := hst
    exact ⟨b, _, _, hb, hsta, ho1a, by omega, Or.inr ⟨h7, rfl⟩, h⟩

/-- For `insize` at or above `INT_MAX` the copy loop of `etl_unescape` cannot
end: its counter `i` would have to pass `INT_MAX`. -/
theorem unescape_copy_int_range (input : List Nat) (insize fuel i o : Nat) (buffer : List Nat)
    (hin : INT_MAX ≤ insize) (hi : i ≤ INT_MAX) (r : List Nat × Nat) :
    unescape_copy input insize fuel i o buffer ≠ .ok r := by
  induction fuel generalizing i o buffer with
  | zero =>
    rw [unescape_copy, if_pos (by omega)]
    intro h; cases h
  | succ fuel ih =>
    intro h
    obtain ⟨b, v, i', _, _, _, hi', _, h'⟩ :=
      unescape_copy_step input insize fuel i o buffer r (by omega) h
    exact ih i' _ _ hi' h'

/-- A run of the copy loop of `etl_unescape` that returns made every store
inside the buffer, and made at least one store for every byte or pair of
`input[i .. insize]`. -/
theorem unescape_copy_stores (input : List Nat) (insize fuel i o : Nat) (buffer : List Nat)
    (r : List Nat × Nat) (ho : o ≤ buffer.length)
    (h : unescape_copy input insize fuel i o buffer = .ok r) :
    r.2 ≤ buffer.length ∧
      o + insize + 1 ≤ r.2 + i + ((input.take (insize + 1)).drop i).count 0x7D := by
  induction fuel generalizing i o buffer with
  | zero =>
    rw [unescape_copy] at h
    by_cases hi : i ≤ insize
    · rw [if_pos hi] at h; cases h
    · rw [if_neg hi] at h
      cases h
      exact ⟨ho, by simp only; omega⟩
  | succ fuel ih =>
    by_cases hi : i ≤ insize
    · obtain ⟨b, v, i', hb, hst, _, _, hcase, h'⟩ :=
        unescape_copy_step input insize fuel i o buffer r hi h
      obtain ⟨h1, h2⟩ := ih i' (o + 1) (buffer.set o v) (by rw [List.length_set]; omega) h'
      rw [List.length_set] at h1
      refine ⟨h1, ?_⟩
      have hlt : i < (input.take (insize + 1)).length := by
        have := (List.getElem?_eq_some_iff.mp hb).1
        rw [List.length_take]
        omega
      have hget : (input.take (insize + 1))[i]? = some b := by
        rw [List.getElem?_take_of_lt (by omega)]
        exact hb
      have hdrop : (input.take (insize + 1)).drop i =
          b :: (input.take (insize + 1)).drop (i + 1) := by
        rw [List.drop_eq_getElem_cons hlt]
        congr 1
        have := List.getElem?_eq_getElem hlt
        rw [hget] at this
        exact (Option.some.inj this).symm
      have hsub : ((input.take (insize + 1)).drop (i + 2)).count 0x7D ≤
          ((input.take (insize + 1)).drop (i + 1)).count 0x7D := by
        apply List.Sublist.count_le
        have e : (input.take (insize + 1)).drop (i + 2) =
            ((input.take (insize + 1)).drop (i + 1)).drop 1 := by
          rw [List.drop_drop]
        rw [e]
        exact List.drop_sublist _ _
      rw [hdrop, List.count_cons]
      rcases hcase with ⟨h7, rfl⟩ | ⟨h7, rfl⟩
      · subst h7
        simp only [beq_self_eq_true, if_true]
        omega
      · have hb' : (b == 125) = false := by simpa using h7
        simp only [hb', Bool.false_eq_true, if_false]
        omega
    · rw [unescape_copy, if_neg hi] at h
      cases h
      exact ⟨ho, by simp only; omega⟩

/-- Function `etl_unescape` returns no result on an input that holds a byte
other than 0x7D at an index up to `insize`: the copy loop makes more stores
than the sizing loop counted bytes, so one of them leaves the buffer, unless a
load leaves the input or a counter leaves the range of `int` before. -/
theorem etl_unescape_no_result (input : List Nat) (insize j : Nat) (hj : j ≤ insize)
    (hne : input[j]? ≠ some 0x7D) (r : Ret) : etl_unescape input insize ≠ .ok r := by
  intro h
  unfold etl_unescape at h
  rw [bind_eq_ok] at h
  obtain ⟨size, hsize, h⟩ := h
  rw [bind_eq_ok] at h
  obtain ⟨filled, hcopy, _⟩ := h
  by_cases hin : insize ≤ INT_MAX
  · rw [if_pos hin] at hsize
    have hlt : insize < input.length := by
      by_contra hge
      rw [unescape_size_oob input insize insize (by omega)] at hsize
      cases hsize
    have htl : (input.take (insize + 1)).length = insize + 1 := by
      rw [List.length_take]; omega
    have hcl : (input.take (insize + 1)).count 0x7D ≤ insize + 1 := by
      have hle := List.count_le_length (0x7D : Nat) (input.take (insize + 1))
      omega
    by_cases hC : (input.take (insize + 1)).count 0x7D ≤ insize
    · rw [unescape_size_spec input insize insize hlt hC (by unfold U32; unfold INT_MAX at hin; omega)]
        at hsize
      cases hsize
      obtain ⟨h1, h2⟩ := unescape_copy_stores input insize (insize + 1) 0 0 _ filled
        (Nat.zero_le _) hcopy
      rw [List.length_replicate] at h1
      rw [List.drop_zero] at h2
      omega
    · have hall : (input.take (insize + 1)).count 0x7D = (input.take (insize + 1)).length := by
        omega
      rw [List.count_eq_length] at hall
      apply hne
      have hjt : j < (input.take (insize + 1)).length := by omega
      have hmem := hall _ (List.getElem_mem hjt)
      rw [List.getElem_take] at hmem
      rw [List.getElem?_eq_getElem (by omega)]
      exact congrArg some hmem.symm
  · rw [if_neg hin] at hsize
    exact unescape_copy_int_range input insize (insize + 1) 0 0 _ (by omega)
      (Nat.zero_le _) filled hcopy

/-- Function `etl_response` returns no result on an input that holds a byte
other than 0x7D at an index up to `insize`, a frame that starts with 0x7E for
one: the call of `etl_unescape` returns none. -/
theorem etl_response_no_result (input : List Nat) (insize j : Nat) (hj : j ≤ insize)
    (hne : input[j]? ≠ some 0x7D) (r : Ret) : etl_response input insize ≠ .ok r := by
  intro h
  unfold etl_response at h
  rw [bind_eq_ok] at h
  obtain ⟨u, hu, _⟩ := h
  exact etl_unescape_no_result input insize j hj hne u hu

theorem etl_unescape_oob (input : List Nat) (h : input.length ≤ INT_MAX) :
    etl_unescape input input.length = .error .oob_read := by
  unfold etl_unescape
  rw [if_pos h, unescape_size_oob input _ _ (le_refl _), error_bind]

/-- On a buffer that ends at its declared length, the copy loop of
`etl_unescape`, given a buffer that takes all its stores, stops with a load at
or behind `input[n]`. -/
theorem unescape_copy_oob (input : List Nat) (fuel i o : Nat) (buffer : List Nat)
    (hi : i ≤ input.length) (hfuel : input.length + 1 ≤ fuel + i)
    (hn : input.length ≤ INT_MAX) (ho : o + (input.length - i) ≤ buffer.length)
    (hoi : o ≤ i) :
    unescape_copy input input.length fuel i o buffer = .error .oob_read := by
  induction fuel generalizing i o buffer with
  | zero => omega
  | succ fuel ih =>
    rw [unescape_copy, if_pos hi]
    by_cases hlt : i < input.length
    · rw [load_of_lt input i hlt, ok_bind]
      by_cases hb : input.get ⟨i, hlt⟩ = 0x7D
      · rw [if_pos hb, int_inc_of_lt i (by omega), ok_bind]
        by_cases hlt1 : i + 1 < input.length
        · rw [load_of_lt input (i + 1) hlt1, ok_bind, store_of_lt _ _ _ (by omega), ok_bind,
            ok_bind, int_inc_of_lt o (by omega), ok_bind, int_inc_of_lt (i + 1) (by omega),
            ok_bind]
          exact ih _ _ _ (by omega) (by omega) (by rw [List.length_set]; omega) (by omega)
        · rw [load_of_length_le input (i + 1) (by omega), error_bind]
      · rw [if_neg hb, store_of_lt _ _ _ (by omega), ok_bind, int_inc_of_lt o (by omega),
          ok_bind, int_inc_of_lt i (by omega), ok_bind]
        exact ih _ _ _ (by omega) (by omega) (by rw [List.length_set]; omega) (by omega)
    · rw [load_of_length_le input i (by omega), error_bind]

/-- The fuel handed to the copy loop by `etl_unescape` is never used up. -/
theorem unescape_copy_fuel (input : List Nat) (insize fuel i o : Nat) (buffer : List Nat)
    (hfuel : insize + 1 ≤ fuel + i) :
    unescape_copy input insize fuel i o buffer ≠ .error .fuel := by
  induction fuel generalizing i o buffer with
  | zero =>
    rw [unescape_copy, if_neg (by omega)]
    intro h; cases h
  | succ fuel ih =>
    rw [unescape_copy]
    by_cases hi : i ≤ insize
    · rw [if_pos hi]
      cases hl : load input i with
      | error e =>
        rw [error_bind]
        unfold load at hl
        split at hl
        · cases hl
        · cases hl; intro h; cases h
      | ok b =>
        rw [ok_bind]
        by_cases hb : b = 0x7D
        · rw [if_pos hb]
          unfold int_inc
          by_cases hi1 : i < INT_MAX
          · rw [if_pos hi1, ok_bind]
            cases hl1 : load input (i + 1) with
            | error e =>
              rw [error_bind]
              unfold load at hl1
              split at hl1
              · cases hl1
              · cases hl1; intro h; cases h
            | ok c =>
              rw [ok_bind]
              unfold store
              by_cases hs : o < buffer.length
              · rw [if_pos hs, ok_bind, ok_bind]
                by_cases ho : o < INT_MAX
                · rw [if_pos ho, ok_bind]
                  by_cases hi2 : i + 1 < INT_MAX
                  · rw [if_pos hi2, ok_bind]
                    exact ih _ _ _ (by omega)
                  · rw [if_neg hi2, error_bind]
                    intro h; cases h
                · rw [if_neg ho, error_bind]
                  intro h; cases h
              · rw [if_neg hs, error_bind]
                intro h; cases h
          · rw [if_neg hi1, error_bind]
            intro h; cases h
        · rw [if_neg hb]
          unfold store int_inc
          by_cases hs : o < buffer.length
          · rw [if_pos hs, ok_bind]
            by_cases ho : o < INT_MAX
            · rw [if_pos ho, ok_bind]
              by_cases hi2 : i < INT_MAX
              · rw [if_pos hi2, ok_bind]
                exact ih _ _ _ (by omega)
              · rw [if_neg hi2, error_bind]
                intro h; cases h
            · rw [if_neg ho, error_bind]
              intro h; cases h
          · rw [if_neg hs, error_bind]
            intro h; cases h
    · rw [if_neg hi]
      intro h; cases h

theorem unescape_size_error (input : List Nat) (i size : Nat) (e : Fault)
    (h : unescape_size input i size = .error e) : e = .oob_read := by
  induction i generalizing size with
  | zero =>
    rw [unescape_size] at h
    cases hl : load input 0 with
    | error e' =>
      rw [hl] at h
      unfold load at hl
      split at hl
      · cases hl
      · cases hl; cases h; rfl
    | ok b => rw [hl] at h; cases h
  | succ i ih =>
    rw [unescape_size] at h
    cases hl : load input (i + 1) with
    | error e' =>
      rw [hl] at h
      unfold load at hl
      split at hl
      · cases hl
      · cases hl; cases h; rfl
    | ok b =>
      rw [hl] at h
      exact ih _ h

/-- Function `etl_unescape` never stops for lack of fuel: when it returns no
result, a load left the input, a store left the buffer or a counter left the
range of `int`. -/
theorem etl_unescape_fuel (input : List Nat) (insize : Nat) :
    etl_unescape input insize ≠ .error .fuel := by
  intro h
  unfold etl_unescape at h
  cases hs : (if insize ≤ INT_MAX then unescape_size input insize insize else .ok insize) with
  | error e =>
    rw [hs, error_bind] at h
    cases h
    by_cases hin : insize ≤ INT_MAX
    · rw [if_pos hin] at hs
      have := unescape_size_error _ _ _ _ hs
      cases this
    · rw [if_neg hin] at hs
      cases hs
  | ok size =>
    rw [hs, ok_bind] at h
    cases hc : unescape_copy input insize (insize + 1) 0 0 (List.replicate size 0) with
    | error e =>
      rw [hc, error_bind] at h
      cases h
      exact unescape_copy_fuel input insize (insize + 1) 0 0 _ (by omega) hc
    | ok filled =>
      rw [hc, ok_bind] at h
      cases h

/-- On an input that holds a byte other than 0x7D at an index up to `insize`,
`etl_unescape` stops on a fault of the C program. -/
theorem etl_unescape_faults (input : List Nat) (insize j : Nat) (hj : j ≤ insize)
    (hne : input[j]? ≠ some 0x7D) :
    ∃ e, etl_unescape input insize = .error e ∧ e ≠ .fuel := by
  cases h : etl_unescape input insize with
  | ok r => exact absurd h (etl_unescape_no_result input insize j hj hne r)
  | error e =>
    refine ⟨e, rfl, ?_⟩
    rintro rfl
    exact etl_unescape_fuel input insize h

/-- On an input that holds a byte other than 0x7D at an index up to `insize`, a
frame that starts with 0x7E for one, `etl_response` stops on a fault of the C
program, inside its call of `etl_unescape`. -/
theorem etl_response_faults (input : List Nat) (insize j : Nat) (hj : j ≤ insize)
    (hne : input[j]? ≠ some 0x7D) :
    ∃ e, etl_unescape input insize = .error e ∧ etl_response input insize = .error e ∧
      e ≠ .fuel := by
  obtain ⟨e, he, hf⟩ := etl_unescape_faults input insize j hj hne
  refine ⟨e, he, ?_, hf⟩
  unfold etl_response
  rw [he, error_bind]

theorem unescape_copy_exit (input : List Nat) (insize fuel i o : Nat) (buffer : List Nat)
    (h : insize < i) : unescape_copy input insize fuel i o buffer = .ok (buffer, o) := by
  cases fuel <;> simp [unescape_copy, Nat.not_le.mpr h]

/-- Copy loop of `etl_unescape` at a 0x7D that is the last byte of the input:
the byte to unescape is loaded from behind the input. -/
theorem unescape_copy_lone_marker (pre : List Nat) (insize fuel o : Nat) (buffer : List Nat)
    (hi : pre.length ≤ insize) (hmax : pre.length < INT_MAX) :
    unescape_copy (pre ++ [0x7D]) insize (fuel + 1) pre.length o buffer =
      .error .oob_read := by
  rw [unescape_copy, if_pos hi, load_append, ok_bind, if_pos rfl, int_inc_of_lt _ hmax, ok_bind,
    load_of_length_le _ _ (by simp), error_bind]

/-- Copy loop of `etl_unescape` at a 0x7D that is the last byte of the declared
length, with a byte `x` behind it in memory: `x XOR 0x20` is stored as the
unescaped byte and the loop ends. -/
theorem unescape_copy_lone_marker_next (pre tail : List Nat) (x fuel o : Nat)
    (buffer : List Nat) (hmax : pre.length + 1 < INT_MAX) (ho : o < buffer.length)
    (ho' : o < INT_MAX) :
    unescape_copy (pre ++ 0x7D :: x :: tail) (pre.length + 1) (fuel + 1) pre.length o buffer =
      .ok (buffer.set o (x ^^^ 0x20), o + 1) := by
  have hx : load (pre ++ 0x7D :: x :: tail) (pre.length + 1) = .ok x := by
    have e : pre ++ 0x7D :: x :: tail = (pre ++ [0x7D]) ++ x :: tail := by simp
    have hl : (pre ++ [0x7D]).length = pre.length + 1 := by simp
    rw [e, ← hl, load_append]
  rw [unescape_copy, if_pos (by omega), load_append, ok_bind, if_pos rfl,
    int_inc_of_lt _ (by omega), ok_bind, hx, ok_bind, store_of_lt _ _ _ ho, ok_bind, ok_bind,
    int_inc_of_lt _ ho', ok_bind, int_inc_of_lt _ hmax, ok_bind,
    unescape_copy_exit _ _ _ _ _ _ (by omega)]

/-! ## The part of `etl_response` behind the call of `etl_unescape` -/

theorem crc_loop_oob (buf : List Nat) (n crc : Nat) (h : buf.length < n) :
    crc_loop buf n crc = .error .oob_read := by
  induction buf generalizing n crc with
  | nil =>
    obtain ⟨m, rfl⟩ : ∃ m, n = m + 1 := ⟨n - 1, by simp only [List.length_nil] at h; omega⟩
    rfl
  | cons b rest ih =>
    obtain ⟨m, rfl⟩ : ∃ m, n = m + 1 := ⟨n - 1, by omega⟩
    rw [crc_loop]
    exact ih _ _ (by simp only [List.length_cons] at h; omega)

/-- On fewer than four unescaped bytes the length `size-4` wraps around to at
least `2 ^ 32 - 4` and the checksum loop leaves the buffer. -/
theorem etl_response_check_short (U : List Nat) (h : U.length < 4) :
    etl_response_check U U.length = .error .oob_read := by
  have hcrc : etl_crc16 (U.drop 1) ((U32 + U.length - 4) % U32) = .error .oob_read := by
    unfold etl_crc16
    rw [crc_loop_oob _ _ _ (by rw [List.length_drop]; unfold U32; omega)]
  unfold etl_response_check
  rw [hcrc, error_bind]

/-- On at least four unescaped bytes `U` the checksum of `U[1 .. |U|-4]` and
the two trailer bytes `U[|U|-3]`, `U[|U|-2]` are loaded inside `U`, and the
result is status 0 with the first `n` bytes from `U[1]` on, where `n` is
`|U|-4` when the checksum equals the little-endian trailer and `|U|-2` when it
does not. -/
theorem etl_response_check_eq (U : List Nat) (c lo hi : Nat)
    (h4 : 4 ≤ U.length) (hlt : U.length < 2 ^ 32)
    (hc : etl_crc16 (U.drop 1) (U.length - 4) = .ok c)
    (hlo : load U (U.length - 3) = .ok lo)
    (hhi : load U (U.length - 2) = .ok hi) :
    etl_response_check U U.length =
      .ok ⟨0, (U.drop 1).take (if c = lo + 256 * hi then U.length - 4 else U.length - 2),
        if c = lo + 256 * hi then U.length - 4 else U.length - 2⟩ := by
  have hs4 : (U32 + U.length - 4) % U32 = U.length - 4 := by unfold U32; omega
  have hs3 : (U32 + U.length - 3) % U32 = U.length - 3 := by unfold U32; omega
  have hs3' : U.length - 3 + 1 = U.length - 2 := by omega
  have hdl : (U.drop 1).length = U.length - 1 := by rw [List.length_drop]
  unfold etl_response_check
  rw [hs4, hc, ok_bind, hs3, hlo, ok_bind, hs3', hhi, ok_bind]
  dsimp only
  by_cases heq : c = lo + 256 * hi
  · simp only [if_neg (not_not.mpr heq), if_pos heq]
    rw [hs4, load_bytes_of_le _ _ (by omega), ok_bind]
    rfl
  · have e : (U32 + (U.length + 2) % U32 - 4) % U32 = U.length - 2 := by unfold U32; omega
    simp only [if_pos heq, if_neg heq]
    rw [e, load_bytes_of_le _ _ (by omega), ok_bind]
    rfl

/-- On the unescaped bytes `b0, Q, lo, hi, e0`, whatever the bytes `b0` and `e0`
are: the result is `Q` when the checksum of `Q` is `lo + 256 * hi`, and
`Q, lo, hi` when it is not. -/
theorem etl_response_check_delimited (Q : List Nat) (b0 e0 lo hi : Nat)
    (h : Q.length + 4 < 2 ^ 32) :
    etl_response_check ([b0] ++ Q ++ [lo, hi] ++ [e0]) (Q.length + 4) =
      if Q.foldl crc_step 0xffff ^^^ 0xffff = lo + 256 * hi then .ok ⟨0, Q, Q.length⟩
      else .ok ⟨0, Q ++ [lo, hi], Q.length + 2⟩ := by
  have hUlen : ([b0] ++ Q ++ [lo, hi] ++ [e0]).length = Q.length + 4 := by simp
  have hdrop : ([b0] ++ Q ++ [lo, hi] ++ [e0]).drop 1 = Q ++ [lo, hi, e0] := by simp
  have hlo : load ([b0] ++ Q ++ [lo, hi] ++ [e0]) (Q.length + 1) = .ok lo := by
    have e : [b0] ++ Q ++ [lo, hi] ++ [e0] = ([b0] ++ Q) ++ lo :: [hi, e0] := by simp
    have hl : ([b0] ++ Q).length = Q.length + 1 := by simp
    rw [e, ← hl, load_append]
  have hhi : load ([b0] ++ Q ++ [lo, hi] ++ [e0]) (Q.length + 2) = .ok hi := by
    have e : [b0] ++ Q ++ [lo, hi] ++ [e0] = ([b0] ++ Q ++ [lo]) ++ hi :: [e0] := by simp
    have hl : ([b0] ++ Q ++ [lo]).length = Q.length + 2 := by simp
    rw [e, ← hl, load_append]
  have hcrc : etl_crc16 (Q ++ [lo, hi, e0]) Q.length =
      .ok (Q.foldl crc_step 0xffff ^^^ 0xffff) := etl_crc16_append Q _
  have hres := etl_response_check_eq ([b0] ++ Q ++ [lo, hi] ++ [e0])
    (Q.foldl crc_step 0xffff ^^^ 0xffff) lo hi (by rw [hUlen]; omega) (by rw [hUlen]; exact h)
    (by rw [hdrop, hUlen]; exact hcrc) (by rw [hUlen]; exact hlo) (by rw [hUlen]; exact hhi)
  rw [hUlen] at hres
  rw [hres, hdrop]
  by_cases hc : Q.foldl crc_step 0xffff ^^^ 0xffff = lo + 256 * hi
  · simp only [if_pos hc, Nat.add_sub_cancel, List.take_left]
  · have e : (Q ++ [lo, hi, e0]).take (Q.length + 4 - 2) = Q ++ [lo, hi] := by
      have : Q ++ [lo, hi, e0] = (Q ++ [lo, hi]) ++ [e0] := by simp
      rw [this]
      exact List.take_left' (by simp)
    have e2 : Q.length + 4 - 2 = Q.length + 2 := by omega
    simp only [if_neg hc, e]
    rw [e2]

/-! ## Round trips -/

theorem escape_ref_has_plain_byte (X : List Nat) (hX : X ≠ []) :
    ∃ j, j ≤ (escape_ref X).length ∧ ∀ tail : List Nat, (escape_ref X ++ tail)[j]? ≠ some 0x7D := by
  obtain ⟨b, rest, rfl⟩ := List.exists_cons_of_ne_nil hX
  by_cases h1 : b = 0x7E
  · subst h1
    exact ⟨1, by simp [escape_ref, escape_block], by intro tail; simp [escape_ref, escape_block]⟩
  · by_cases h2 : b = 0x7D
    · subst h2
      exact ⟨1, by simp [escape_ref, escape_block],
        by intro tail; simp [escape_ref, escape_block]⟩
    · exact ⟨0, Nat.zero_le _, by intro tail; simp [escape_ref, escape_block, h1, h2]⟩

/-- C2 on the code. The escaped form of the one-byte sequence `[0x41]` is the
one-byte buffer `[0x41]`. `etl_unescape` on that buffer loads `input[1]`, one
past its end; when the byte found there is 0x7D (followed here by 0x00) the
sizing pass computes the length 0 instead of 1 and the copy pass stores behind
its buffer, and the sizing pass on the empty buffer with 0x7D behind it yields
`2 ^ 32 - 1`. On the escaped form of any non-empty sequence, whatever lies
behind it in memory, `etl_unescape` returns no result: it stops on a load
outside its input, a store outside its buffer or a counter outside the range
of `int`. -/
theorem etl_unescape_escape_fails :
    etl_escape [0x41] 1 = .ok ⟨0, [0x41], 1⟩ ∧
    etl_unescape [0x41] 1 = .error .oob_read ∧
    unescape_size ([0x41] ++ [0x7D, 0x00]) 1 1 = .ok 0 ∧
    etl_unescape ([0x41] ++ [0x7D, 0x00]) 1 = .error .oob_write ∧
    etl_unescape ([0x41] ++ [0x00, 0x00]) 1 = .error .oob_write ∧
    etl_escape [] 0 = .ok ⟨0, [], 0⟩ ∧
    unescape_size ([] ++ [0x7D, 0x00]) 0 0 = .ok 4294967295 ∧
    (∀ X tail : List Nat, X ≠ [] →
      ∃ e, etl_unescape (escape_ref X ++ tail) (escape_ref X).length = .error e ∧
        e ≠ .fuel) := by
  refine ⟨rfl, rfl, rfl, rfl, rfl, rfl, rfl, ?_⟩
  intro X tail hX
  obtain ⟨j, hj, hne⟩ := escape_ref_has_plain_byte X hX
  exact etl_unescape_faults _ _ j hj (hne tail)

set_option maxRecDepth 100000 in
/-- C1 on the code. The frame of the payload `[0x01, 0x02]` is the six bytes
`7E 01 02 8D 35 7E`. `etl_response` on that frame loads `input[6]`, one past its
end; when the byte found there is 0x7D (followed here by 0x00) the sizing pass
computes the length 5 and the copy pass stores six bytes, one behind its
buffer; on the five bytes that fit, the rest of `etl_response` yields the three
bytes `01 02 8D` with size 3 instead of the payload. On a frame that starts
with 0x7E, whatever its length and whatever lies behind it in memory,
`etl_response` returns no result: its call of `etl_unescape` stops on a load
outside the input, a store outside its buffer or a counter outside the range
of `int`. -/
theorem etl_response_request_fails :
    etl_request [0x01, 0x02] 2 = .ok ⟨0, [0x7E, 0x01, 0x02, 0x8D, 0x35, 0x7E], 6⟩ ∧
    etl_response [0x7E, 0x01, 0x02, 0x8D, 0x35, 0x7E] 6 = .error .oob_read ∧
    unescape_size ([0x7E, 0x01, 0x02, 0x8D, 0x35, 0x7E] ++ [0x7D, 0x00]) 6 6 = .ok 5 ∧
    etl_response ([0x7E, 0x01, 0x02, 0x8D, 0x35, 0x7E] ++ [0x7D, 0x00]) 6 =
      .error .oob_write ∧
    etl_response_check [0x7E, 0x01, 0x02, 0x8D, 0x35] 5 = .ok ⟨0, [0x01, 0x02, 0x8D], 3⟩ ∧
    etl_response ([0x7E, 0x01, 0x02, 0x8D, 0x35, 0x7E] ++ [0x00]) 6 = .error .oob_write ∧
    (∀ (rest : List Nat) (insize : Nat),
      ∃ e, etl_unescape (0x7E :: rest) insize = .error e ∧
        etl_response (0x7E :: rest) insize = .error e ∧ e ≠ .fuel) :=
  ⟨rfl, rfl, rfl, rfl, rfl, rfl, fun rest insize =>
    etl_response_faults (0x7E :: rest) insize 0 (Nat.zero_le _) (by simp)⟩

/-! ## What `etl_response` does with the unescaped bytes -/

/-- C11 as stated fails. The six bytes `7E 01 03 8D 35 7E` hold no 0x7D and are
their own unescaped form; the checksum of `01 03` is 0x2404, not 0x358D, and the
part of `etl_response` behind the call of `etl_unescape` reports size 4 and the
bytes `01 03 8D 35`, not size `6 - 4`. -/
theorem etl_response_size_depends_on_checksum :
    etl_crc16 [0x01, 0x03] 2 = .ok 0x2404 ∧
    etl_response_check [0x7E, 0x01, 0x03, 0x8D, 0x35, 0x7E] 6 =
      .ok ⟨0, [0x01, 0x03, 0x8D, 0x35], 4⟩ ∧
    (4 : Nat) ≠ [0x7E, 0x01, 0x03, 0x8D, 0x35, 0x7E].length - 4 :=
  ⟨rfl, rfl, by decide⟩

/-- C11, amended. For every unescaped buffer `U` of at least 4 bytes, the part
of `etl_response` behind the call of `etl_unescape` (lines 100 to 113), run on
`U` and its length, returns the bytes that start at `U[1]` and reports their
number, which is `|U| - 4` when the checksum of `U[1 .. |U|-4]` equals the
embedded little-endian checksum and `|U| - 2` when it does not. -/
theorem etl_response_size_by_checksum (U : List Nat) (c lo hi : Nat)
    (h4 : 4 ≤ U.length) (hlt : U.length < 2 ^ 32)
    (hc : etl_crc16 (U.drop 1) (U.length - 4) = .ok c)
    (hlo : load U (U.length - 3) = .ok lo)
    (hhi : load U (U.length - 2) = .ok hi) :
    (c = lo + 256 * hi →
      etl_response_check U U.length =
        .ok ⟨0, (U.drop 1).take (U.length - 4), U.length - 4⟩) ∧
    (c ≠ lo + 256 * hi →
      etl_response_check U U.length =
        .ok ⟨0, (U.drop 1).take (U.length - 2), U.length - 2⟩) := by
  have h := etl_response_check_eq U c lo hi h4 hlt hc hlo hhi
  constructor
  · intro heq
    rw [h, if_pos heq]
  · intro hne
    rw [h, if_neg hne]

theorem etl_response_size_by_checksum_witness :
    (4 ≤ [0x7E, 0x01, 0x03, 0x8D, 0x35, 0x7E].length ∧
      [0x7E, 0x01, 0x03, 0x8D, 0x35, 0x7E].length < 2 ^ 32 ∧
      etl_crc16 ([0x7E, 0x01, 0x03, 0x8D, 0x35, 0x7E].drop 1)
        ([0x7E, 0x01, 0x03, 0x8D, 0x35, 0x7E].length - 4) = .ok 0x2404 ∧
      load [0x7E, 0x01, 0x03, 0x8D, 0x35, 0x7E]
        ([0x7E, 0x01, 0x03, 0x8D, 0x35, 0x7E].length - 3) = .ok 0x8D ∧
      load [0x7E, 0x01, 0x03, 0x8D, 0x35, 0x7E]
        ([0x7E, 0x01, 0x03, 0x8D, 0x35, 0x7E].length - 2) = .ok 0x35) ∧
    ((0x2404 = 0x8D + 256 * 0x35 →
      etl_response_check [0x7E, 0x01, 0x03, 0x8D, 0x35, 0x7E]
          [0x7E, 0x01, 0x03, 0x8D, 0x35, 0x7E].length =
        .ok ⟨0, ([0x7E, 0x01, 0x03, 0x8D, 0x35, 0x7E].drop 1).take
          ([0x7E, 0x01, 0x03, 0x8D, 0x35, 0x7E].length - 4),
          [0x7E, 0x01, 0x03, 0x8D, 0x35, 0x7E].length - 4⟩) ∧
    (0x2404 ≠ 0x8D + 256 * 0x35 →
      etl_response_check [0x7E, 0x01, 0x03, 0x8D, 0x35, 0x7E]
          [0x7E, 0x01, 0x03, 0x8D, 0x35, 0x7E].length =
        .ok ⟨0, ([0x7E, 0x01, 0x03, 0x8D, 0x35, 0x7E].drop 1).take
          ([0x7E, 0x01, 0x03, 0x8D, 0x35, 0x7E].length - 2),
          [0x7E, 0x01, 0x03, 0x8D, 0x35, 0x7E].length - 2⟩)) ∧
    (0x2404 : Nat) ≠ 0x8D + 256 * 0x35 ∧
    ([0x7E, 0x01, 0x03, 0x8D, 0x35, 0x7E].drop 1).take
        ([0x7E, 0x01, 0x03, 0x8D, 0x35, 0x7E].length - 2) = [0x01, 0x03, 0x8D, 0x35] :=
  ⟨⟨by decide, by decide, rfl, rfl, rfl⟩,
    etl_response_size_by_checksum [0x7E, 0x01, 0x03, 0x8D, 0x35, 0x7E] 0x2404 0x8D 0x35
      (by decide) (by decide) rfl rfl rfl,
    by decide, rfl⟩

/-- C17 on the code. For every unescaped buffer `U` of at least 4 bytes whose
bytes `U[|U|-3]`, `U[|U|-2]`, read as a little-endian 16-bit value, equal
`etl_crc16` of `U[1 .. |U|-4]`, the part of `etl_response` behind the call of
`etl_unescape`, run on `U`, yields exactly the `|U| - 4` bytes
`U[1], .., U[|U|-4]` and the size `|U| - 4`; but `etl_response` itself returns
no result on any input that holds a byte other than 0x7D at an index up to
`insize`, which every frame does: its call of `etl_unescape` stops on a load
outside the input, a store outside its buffer or a counter outside the range
of `int`. -/
theorem etl_response_returns_payload (U : List Nat) (lo hi : Nat)
    (h4 : 4 ≤ U.length) (hlt : U.length < 2 ^ 32)
    (hlo : load U (U.length - 3) = .ok lo)
    (hhi : load U (U.length - 2) = .ok hi)
    (hc : etl_crc16 (U.drop 1) (U.length - 4) = .ok (lo + 256 * hi)) :
    etl_response_check U U.length =
      .ok ⟨0, (U.drop 1).take (U.length - 4), U.length - 4⟩ ∧
    (∀ (input : List Nat) (insize j : Nat), j ≤ insize → input[j]? ≠ some 0x7D →
      ∃ e, etl_unescape input insize = .error e ∧ etl_response input insize = .error e ∧
        e ≠ .fuel) := by
  refine ⟨?_, fun input insize j hj hne => etl_response_faults input insize j hj hne⟩
  rw [etl_response_check_eq U _ lo hi h4 hlt hc hlo hhi, if_pos rfl]

set_option maxRecDepth 100000 in
theorem etl_response_returns_payload_witness :
    (4 ≤ [0x7E, 0x01, 0x02, 0x8D, 0x35, 0x7E].length ∧
      [0x7E, 0x01, 0x02, 0x8D, 0x35, 0x7E].length < 2 ^ 32 ∧
      load [0x7E, 0x01, 0x02, 0x8D, 0x35, 0x7E]
        ([0x7E, 0x01, 0x02, 0x8D, 0x35, 0x7E].length - 3) = .ok 0x8D ∧
      load [0x7E, 0x01, 0x02, 0x8D, 0x35, 0x7E]
        ([0x7E, 0x01, 0x02, 0x8D, 0x35, 0x7E].length - 2) = .ok 0x35 ∧
      etl_crc16 ([0x7E, 0x01, 0x02, 0x8D, 0x35, 0x7E].drop 1)
        ([0x7E, 0x01, 0x02, 0x8D, 0x35, 0x7E].length - 4) = .ok (0x8D + 256 * 0x35)) ∧
    (etl_response_check [0x7E, 0x01, 0x02, 0x8D, 0x35, 0x7E]
        [0x7E, 0x01, 0x02, 0x8D, 0x35, 0x7E].length =
      .ok ⟨0, ([0x7E, 0x01, 0x02, 0x8D, 0x35, 0x7E].drop 1).take
        ([0x7E, 0x01, 0x02, 0x8D, 0x35, 0x7E].length - 4),
        [0x7E, 0x01, 0x02, 0x8D, 0x35, 0x7E].length - 4⟩ ∧
      (∀ (input : List Nat) (insize j : Nat), j ≤ insize → input[j]? ≠ some 0x7D →
        ∃ e, etl_unescape input insize = .error e ∧ etl_response input insize = .error e ∧
          e ≠ .fuel)) ∧
    ([0x7E, 0x01, 0x02, 0x8D, 0x35, 0x7E].drop 1).take
        ([0x7E, 0x01, 0x02, 0x8D, 0x35, 0x7E].length - 4) = [0x01, 0x02] ∧
    etl_response [0x7E, 0x01, 0x02, 0x8D, 0x35, 0x7E] 6 = .error .oob_read ∧
    etl_response ([0x7E, 0x01, 0x02, 0x8D, 0x35, 0x7E] ++ [0x00]) 6 = .error .oob_write :=
  ⟨⟨by decide, by decide, rfl, rfl, rfl⟩,
    etl_response_returns_payload [0x7E, 0x01, 0x02, 0x8D, 0x35, 0x7E] 0x8D 0x35
      (by decide) (by decide) rfl rfl rfl,
    rfl, rfl, rfl⟩

/-- C20 on the code. For every unescaped buffer `U` of at least 4 bytes whose
embedded little-endian checksum `U[|U|-3]`, `U[|U|-2]` differs from `etl_crc16`
of `U[1 .. |U|-4]`, the part of `etl_response` behind the call of
`etl_unescape`, run on `U`, yields status 0 and the `|U| - 2` bytes
`U[1 .. |U|-2]`, the payload followed by the two embedded checksum bytes, and
the size it yields is `|U| - 4` if and only if the checksum matches; but
`etl_response` itself returns no result on any input that holds a byte other
than 0x7D at an index up to `insize`, which every frame does: its call of
`etl_unescape` stops on a load outside the input, a store outside its buffer
or a counter outside the range of `int`. -/
theorem etl_response_on_mismatch (U : List Nat) (c lo hi : Nat)
    (h4 : 4 ≤ U.length) (hlt : U.length < 2 ^ 32)
    (hc : etl_crc16 (U.drop 1) (U.length - 4) = .ok c)
    (hlo : load U (U.length - 3) = .ok lo)
    (hhi : load U (U.length - 2) = .ok hi) :
    (c ≠ lo + 256 * hi →
      etl_response_check U U.length =
        .ok ⟨0, (U.drop 1).take (U.length - 2), U.length - 2⟩) ∧
    (∃ r, etl_response_check U U.length = .ok r ∧ r.status = 0 ∧
      (r.outsize = U.length - 4 ↔ c = lo + 256 * hi)) ∧
    (∀ (input : List Nat) (insize j : Nat), j ≤ insize → input[j]? ≠ some 0x7D →
      ∃ e, etl_unescape input insize = .error e ∧ etl_response input insize = .error e ∧
        e ≠ .fuel) := by
  have h := etl_response_check_eq U c lo hi h4 hlt hc hlo hhi
  refine ⟨?_, ?_, fun input insize j hj hne => etl_response_faults input insize j hj hne⟩
  · intro hne
    rw [h, if_neg hne]
  · refine ⟨_, h, rfl, ?_⟩
    show (if c = lo + 256 * hi then U.length - 4 else U.length - 2) =
      U.length - 4 ↔ c = lo + 256 * hi
    by_cases heq : c = lo + 256 * hi
    · rw [if_pos heq]
      exact ⟨fun _ => heq, fun _ => rfl⟩
    · rw [if_neg heq]
      constructor
      · intro h'
        omega
      · intro h'
        exact absurd h' heq

set_option maxRecDepth 100000 in
theorem etl_response_on_mismatch_witness :
    (4 ≤ [0x7E, 0x01, 0x03, 0x8D, 0x35, 0x7E].length ∧
      [0x7E, 0x01, 0x03, 0x8D, 0x35, 0x7E].length < 2 ^ 32 ∧
      etl_crc16 ([0x7E, 0x01, 0x03, 0x8D, 0x35, 0x7E].drop 1)
        ([0x7E, 0x01, 0x03, 0x8D, 0x35, 0x7E].length - 4) = .ok 0x2404 ∧
      load [0x7E, 0x01, 0x03, 0x8D, 0x35, 0x7E]
        ([0x7E, 0x01, 0x03, 0x8D, 0x35, 0x7E].length - 3) = .ok 0x8D ∧
      load [0x7E, 0x01, 0x03, 0x8D, 0x35, 0x7E]
        ([0x7E, 0x01, 0x03, 0x8D, 0x35, 0x7E].length - 2) = .ok 0x35) ∧
    ((0x2404 ≠ 0x8D + 256 * 0x35 →
      etl_response_check [0x7E, 0x01, 0x03, 0x8D, 0x35, 0x7E]
          [0x7E, 0x01, 0x03, 0x8D, 0x35, 0x7E].length =
        .ok ⟨0, ([0x7E, 0x01, 0x03, 0x8D, 0x35, 0x7E].drop 1).take
          ([0x7E, 0x01, 0x03, 0x8D, 0x35, 0x7E].length - 2),
          [0x7E, 0x01, 0x03, 0x8D, 0x35, 0x7E].length - 2⟩) ∧
    (∃ r, etl_response_check [0x7E, 0x01, 0x03, 0x8D, 0x35, 0x7E]
          [0x7E, 0x01, 0x03, 0x8D, 0x35, 0x7E].length = .ok r ∧
      r.status = 0 ∧
      (r.outsize = [0x7E, 0x01, 0x03, 0x8D, 0x35, 0x7E].length - 4 ↔
        0x2404 = 0x8D + 256 * 0x35)) ∧
    (∀ (input : List Nat) (insize j : Nat), j ≤ insize → input[j]? ≠ some 0x7D →
      ∃ e, etl_unescape input insize = .error e ∧ etl_response input insize = .error e ∧
        e ≠ .fuel)) ∧
    (0x2404 : Nat) ≠ 0x8D + 256 * 0x35 ∧
    ([0x7E, 0x01, 0x03, 0x8D, 0x35, 0x7E].drop 1).take
        ([0x7E, 0x01, 0x03, 0x8D, 0x35, 0x7E].length - 2) = [0x01, 0x03, 0x8D, 0x35] ∧
    etl_response [0x7E, 0x01, 0x03, 0x8D, 0x35, 0x7E] 6 = .error .oob_read ∧
    etl_response ([0x7E, 0x01, 0x03, 0x8D, 0x35, 0x7E] ++ [0x00]) 6 = .error .oob_write :=
  ⟨⟨by decide, by decide, rfl, rfl, rfl⟩,
    etl_response_on_mismatch [0x7E, 0x01, 0x03, 0x8D, 0x35, 0x7E] 0x2404 0x8D 0x35
      (by decide) (by decide) rfl rfl rfl,
    by decide, rfl, rfl, rfl⟩

/-! ## What the functions do with malformed input -/

/-- C16 on the code. For every buffer that ends at its declared length `n`
(the empty one included), the index `n` is outside the buffer; for `n` in the
range of `int`, the sizing pass of `etl_unescape` starts with a load of
`input[n]`, the copy pass, run on any output buffer that takes its stores,
reaches a load at or behind `input[n]` as well, and the function stops with an
out-of-bounds load. On no such buffer, of any length, does the function
return a result: it stops on a load outside the input, a store outside its
buffer or a counter outside the range of `int`. -/
theorem etl_unescape_reads_outside_input (input : List Nat) :
    load input input.length = .error .oob_read ∧
    (input.length ≤ INT_MAX →
      unescape_size input input.length input.length = .error .oob_read ∧
      (∀ buffer : List Nat, input.length ≤ buffer.length →
        unescape_copy input input.length (input.length + 1) 0 0 buffer = .error .oob_read) ∧
      etl_unescape input input.length = .error .oob_read) ∧
    (∃ e, etl_unescape input input.length = .error e ∧ e ≠ .fuel) :=
  ⟨load_of_length_le input _ (le_refl _),
    fun hn => ⟨unescape_size_oob input _ _ (le_refl _),
      fun buffer hb => unescape_copy_oob input _ 0 0 buffer (Nat.zero_le _) (le_refl _) hn
        (by omega) (le_refl _),
      etl_unescape_oob input hn⟩,
    etl_unescape_faults input _ input.length (le_refl _)
      (by rw [List.getElem?_eq_none (le_refl _)]; simp)⟩

theorem etl_unescape_reads_outside_input_witness :
    [0x41, 0x42].length ≤ INT_MAX ∧
    (unescape_size [0x41, 0x42] [0x41, 0x42].length [0x41, 0x42].length = .error .oob_read ∧
      (∀ buffer : List Nat, [0x41, 0x42].length ≤ buffer.length →
        unescape_copy [0x41, 0x42] [0x41, 0x42].length ([0x41, 0x42].length + 1) 0 0 buffer =
          .error .oob_read) ∧
      etl_unescape [0x41, 0x42] [0x41, 0x42].length = .error .oob_read) ∧
    load [0x41, 0x42] 2 = .error .oob_read ∧
    unescape_copy [0x41, 0x42] 2 3 0 0 (List.replicate 2 0) = .error .oob_read ∧
    etl_unescape [0x41, 0x42] 2 = .error .oob_read ∧
    etl_unescape [] 0 = .error .oob_read :=
  ⟨by decide, (etl_unescape_reads_outside_input [0x41, 0x42]).2.1 (by decide),
    rfl, rfl, rfl, rfl⟩

/-- C13 on the code. For every buffer that ends in 0x7D, of a length `n` in
the range of `int`: `etl_unescape` stops with an out-of-bounds load instead of
returning an error status; its copy pass, when it stands at that last 0x7D,
loads `input[n]` as the byte to unescape, so on the buffer alone it stops with
an out-of-bounds load, and with a byte `x` behind the buffer in memory it
stores `x XOR 0x20` and ends; and with a byte other than 0x7D behind the buffer
the function returns no result: it stops on a load outside the input, a store
outside its buffer or a counter outside the range of `int`. -/
theorem etl_unescape_truncated_escape (pre tail : List Nat) (x : Nat)
    (hmax : pre.length + 1 < INT_MAX) :
    etl_unescape (pre ++ [0x7D]) (pre ++ [0x7D]).length = .error .oob_read ∧
    (∀ (fuel o : Nat) (buffer : List Nat),
      unescape_copy (pre ++ [0x7D]) (pre ++ [0x7D]).length (fuel + 1) pre.length o buffer =
        .error .oob_read) ∧
    (∀ (fuel o : Nat) (buffer : List Nat), o < buffer.length → o < INT_MAX →
      unescape_copy (pre ++ 0x7D :: x :: tail) (pre ++ [0x7D]).length (fuel + 1) pre.length o
          buffer =
        .ok (buffer.set o (x ^^^ 0x20), o + 1)) ∧
    (x ≠ 0x7D →
      ∃ e, etl_unescape (pre ++ 0x7D :: x :: tail) (pre ++ [0x7D]).length = .error e ∧
        e ≠ .fuel) := by
  have hl : (pre ++ [0x7D]).length = pre.length + 1 := by simp
  refine ⟨etl_unescape_oob _ (by rw [hl]; omega), ?_, ?_, ?_⟩
  · intro fuel o buffer
    rw [hl]
    exact unescape_copy_lone_marker pre _ fuel o buffer (by omega) (by omega)
  · intro fuel o buffer ho ho'
    rw [hl]
    exact unescape_copy_lone_marker_next pre tail x fuel o buffer hmax ho ho'
  · intro hx
    rw [hl]
    apply etl_unescape_faults _ _ (pre.length + 1) (le_refl _)
    have e : pre ++ 0x7D :: x :: tail = (pre ++ [0x7D]) ++ x :: tail := by simp
    rw [e, ← hl, List.getElem?_append_right (le_refl _)]
    simpa using hx

theorem etl_unescape_truncated_escape_witness :
    [0x41].length + 1 < INT_MAX ∧
    (etl_unescape ([0x41] ++ [0x7D]) ([0x41] ++ [0x7D]).length = .error .oob_read ∧
    (∀ (fuel o : Nat) (buffer : List Nat),
      unescape_copy ([0x41] ++ [0x7D]) ([0x41] ++ [0x7D]).length (fuel + 1) [0x41].length o
          buffer =
        .error .oob_read) ∧
    (∀ (fuel o : Nat) (buffer : List Nat), o < buffer.length → o < INT_MAX →
      unescape_copy ([0x41] ++ 0x7D :: 0x5E :: [0x00]) ([0x41] ++ [0x7D]).length (fuel + 1)
          [0x41].length o buffer =
        .ok (buffer.set o (0x5E ^^^ 0x20), o + 1)) ∧
    ((0x5E : Nat) ≠ 0x7D →
      ∃ e, etl_unescape ([0x41] ++ 0x7D :: 0x5E :: [0x00]) ([0x41] ++ [0x7D]).length =
          .error e ∧
        e ≠ .fuel)) ∧
    etl_unescape [0x41, 0x7D] 2 = .error .oob_read ∧
    unescape_copy [0x41, 0x7D] 2 3 0 0 (List.replicate 2 0) = .error .oob_read ∧
    unescape_copy [0x41, 0x7D, 0x5E, 0x00] 2 3 0 0 (List.replicate 2 0) =
      .ok ([0x41, 0x7E], 2) ∧
    unescape_size [0x41, 0x7D, 0x5E, 0x00] 2 2 = .ok 1 ∧
    etl_unescape [0x41, 0x7D, 0x5E, 0x00] 2 = .error .oob_write ∧
    etl_unescape [0x7D] 1 = .error .oob_read :=
  ⟨by decide, etl_unescape_truncated_escape [0x41] [0x00] 0x5E (by decide),
    rfl, rfl, rfl, rfl, rfl, rfl⟩

/-- C14 on the code. For every unescaped buffer `U` of fewer than 4 bytes, the
part of `etl_response` behind the call of `etl_unescape` does compute `size-4`:
in 32-bit unsigned arithmetic it is `2 ^ 32 - 4 + |U|`, the checksum loop is
run over that many bytes from `U[1]` on and leaves the buffer; no error status
is returned. -/
theorem etl_response_short_frame (U : List Nat) (h : U.length < 4) :
    (U32 + U.length - 4) % U32 = 4294967292 + U.length ∧
    etl_crc16 (U.drop 1) (4294967292 + U.length) = .error .oob_read ∧
    etl_response_check U U.length = .error .oob_read := by
  have hs : (U32 + U.length - 4) % U32 = 4294967292 + U.length := by unfold U32; omega
  refine ⟨hs, ?_, etl_response_check_short U h⟩
  unfold etl_crc16
  rw [crc_loop_oob _ _ _ (by rw [List.length_drop]; omega)]

theorem etl_response_short_frame_witness :
    [0x7E, 0x7E].length < 4 ∧
    ((U32 + [0x7E, 0x7E].length - 4) % U32 = 4294967292 + [0x7E, 0x7E].length ∧
      etl_crc16 ([0x7E, 0x7E].drop 1) (4294967292 + [0x7E, 0x7E].length) =
        .error .oob_read ∧
      etl_response_check [0x7E, 0x7E] [0x7E, 0x7E].length = .error .oob_read) ∧
    etl_response [0x7E, 0x7E] 2 = .error .oob_read ∧
    etl_response ([0x7E, 0x7E] ++ [0x00]) 2 = .error .oob_write ∧
    etl_response_check [] 0 = .error .oob_read :=
  ⟨by decide, etl_response_short_frame [0x7E, 0x7E] (by decide), rfl, rfl, rfl⟩

/-- C15 as stated fails. The frame of the payload `01 02` with its first byte
replaced by 0x00 holds no 0x7D and is its own unescaped form; on it the part of
`etl_response` behind the call of `etl_unescape` yields the success status 0
and the payload `01 02`. -/
theorem etl_response_accepts_missing_marker :
    etl_request [0x01, 0x02] 2 = .ok ⟨0, [0x7E, 0x01, 0x02, 0x8D, 0x35, 0x7E], 6⟩ ∧
    etl_response_check [0x00, 0x01, 0x02, 0x8D, 0x35, 0x7E] 6 = .ok ⟨0, [0x01, 0x02], 2⟩ :=
  ⟨rfl, rfl⟩

/-- C15, amended. Missing boundary markers are not rejected: the part of
`etl_response` behind the call of `etl_unescape` (lines 100 to 113) does not
look at the first and the last unescaped byte. For every payload `P` with
checksum `c` and all bytes `b0`, `e0`, on the unescaped bytes
`b0, P, c mod 256, c div 256, e0` it yields the success status 0 and `P`. -/
theorem etl_response_ignores_markers (P : List Nat) (b0 e0 c : Nat)
    (h : P.length + 4 < 2 ^ 32) (hc : etl_crc16 P P.length = .ok c) :
    etl_response_check ([b0] ++ P ++ [c % 256, c / 256] ++ [e0]) (P.length + 4) =
      .ok ⟨0, P, P.length⟩ := by
  rw [etl_crc16_exact] at hc
  cases hc
  rw [etl_response_check_delimited P b0 e0 _ _ h, if_pos (Nat.mod_add_div _ 256).symm]

set_option maxRecDepth 100000 in
theorem etl_response_ignores_markers_witness :
    ([0x01, 0x02].length + 4 < 2 ^ 32 ∧
      etl_crc16 [0x01, 0x02] [0x01, 0x02].length = .ok 0x358D) ∧
    etl_response_check ([0x00] ++ [0x01, 0x02] ++ [0x358D % 256, 0x358D / 256] ++ [0x41])
        ([0x01, 0x02].length + 4) =
      .ok ⟨0, [0x01, 0x02], [0x01, 0x02].length⟩ ∧
    [0x00] ++ [0x01, 0x02] ++ [0x358D % 256, 0x358D / 256] ++ [0x41] =
      [0x00, 0x01, 0x02, 0x8D, 0x35, 0x41] :=
  ⟨⟨by decide, rfl⟩, etl_response_ignores_markers [0x01, 0x02] 0x00 0x41 0x358D (by decide) rfl,
    rfl⟩

/-- C12 as stated fails. With `P = 01 02` (checksum 0x358D) and `P' = 01 03`,
the frame `7E, escape(P' ++ 8D 35), 7E` is `7E 01 03 8D 35 7E`, its own
unescaped form; on it the part of `etl_response` behind the call of
`etl_unescape` yields status 0, the status it yields on the valid frame, and
the four bytes `01 03 8D 35`, not the two bytes of `P'`. -/
theorem etl_response_mismatch_status :
    etl_crc16 [0x01, 0x02] 2 = .ok 0x358D ∧
    [0x7E] ++ escape_ref ([0x01, 0x03] ++ [0x8D, 0x35]) ++ [0x7E] =
      [0x7E, 0x01, 0x03, 0x8D, 0x35, 0x7E] ∧
    etl_response_check [0x7E, 0x01, 0x03, 0x8D, 0x35, 0x7E] 6 =
      .ok ⟨0, [0x01, 0x03, 0x8D, 0x35], 4⟩ ∧
    etl_response_check [0x7E, 0x01, 0x02, 0x8D, 0x35, 0x7E] 6 = .ok ⟨0, [0x01, 0x02], 2⟩ :=
  ⟨rfl, rfl, rfl, rfl⟩

/-- C12, amended. A checksum mismatch is not reported in the status. For every
payload `P` of bytes with checksum `c` and every `P'` obtained from `P` by
flipping one bit, the part of `etl_response` behind the call of `etl_unescape`
(lines 100 to 113), run on the unescaped bytes
`7E, P', c mod 256, c div 256, 7E`, yields status 0, the status it yields on
the unescaped valid frame of `P`; the mismatch shows in the output, which is
`P'` followed by the two checksum bytes of `P`, of size `|P| + 2`. -/
theorem etl_response_single_bit_error (P : List Nat) (i k c : Nat)
    (hP : ∀ b ∈ P, b < 256) (hi : i < P.length) (hk : k < 8)
    (h : P.length + 4 < 2 ^ 32) (hc : etl_crc16 P P.length = .ok c) :
    etl_response_check
        ([0x7E] ++ P.set i (P.get ⟨i, hi⟩ ^^^ 2 ^ k) ++ [c % 256, c / 256] ++ [0x7E])
        (P.length + 4) =
      .ok ⟨0, P.set i (P.get ⟨i, hi⟩ ^^^ 2 ^ k) ++ [c % 256, c / 256], P.length + 2⟩ ∧
    etl_response_check ([0x7E] ++ P ++ [c % 256, c / 256] ++ [0x7E]) (P.length + 4) =
      .ok ⟨0, P, P.length⟩ := by
  rw [etl_crc16_exact] at hc
  cases hc
  constructor
  · have hne := crc_value_flip_ne P i k hP hi hk
    have hl : (P.set i (P.get ⟨i, hi⟩ ^^^ 2 ^ k)).length = P.length := List.length_set ..
    have hd := etl_response_check_delimited (P.set i (P.get ⟨i, hi⟩ ^^^ 2 ^ k)) 0x7E 0x7E
      ((P.foldl crc_step 0xffff ^^^ 0xffff) % 256) ((P.foldl crc_step 0xffff ^^^ 0xffff) / 256)
      (by rw [hl]; exact h)
    rw [hl] at hd
    rw [hd, if_neg (by rw [Nat.mod_add_div]; exact fun e => hne e.symm)]
  · rw [etl_response_check_delimited P 0x7E 0x7E _ _ h, if_pos (Nat.mod_add_div _ 256).symm]

set_option maxRecDepth 100000 in
theorem etl_response_single_bit_error_witness :
    ((∀ b ∈ [0x01, 0x02], b < 256) ∧ 1 < [0x01, 0x02].length ∧ 0 < 8 ∧
      [0x01, 0x02].length + 4 < 2 ^ 32 ∧
      etl_crc16 [0x01, 0x02] [0x01, 0x02].length = .ok 0x358D) ∧
    (etl_response_check
        ([0x7E] ++ [0x01, 0x02].set 1 ([0x01, 0x02].get ⟨1, by decide⟩ ^^^ 2 ^ 0) ++
          [0x358D % 256, 0x358D / 256] ++ [0x7E])
        ([0x01, 0x02].length + 4) =
      .ok ⟨0, [0x01, 0x02].set 1 ([0x01, 0x02].get ⟨1, by decide⟩ ^^^ 2 ^ 0) ++
        [0x358D % 256, 0x358D / 256], [0x01, 0x02].length + 2⟩ ∧
    etl_response_check ([0x7E] ++ [0x01, 0x02] ++ [0x358D % 256, 0x358D / 256] ++ [0x7E])
        ([0x01, 0x02].length + 4) =
      .ok ⟨0, [0x01, 0x02], [0x01, 0x02].length⟩) ∧
    [0x01, 0x02].set 1 ([0x01, 0x02].get ⟨1, by decide⟩ ^^^ 2 ^ 0) = [0x01, 0x03] :=
  ⟨⟨by decide, by decide, by decide, by decide, rfl⟩,
    etl_response_single_bit_error [0x01, 0x02] 1 0 0x358D
      (by decide) (by decide) (by decide) (by decide) rfl,
    rfl⟩

end Etl
